import Mathlib

/-!
# Verification of `hashmap.h` (separate-chaining hash map)

Shallow embedding of the C++ template class `HashMap<KeyType, ValueType, Hash>`
from `src/hashmap.h`.  Keys and values are specialised to `Nat` (the C++ class
is a template; every claim is about the bookkeeping, not about a particular
key type), and the pluggable hash functor `hasher_` becomes a function field
`hasher : Nat → Nat`.

Modelling decisions, in correspondence with the source:

* `hashmap_` (the `std::vector<std::pair>` of entries) is a `List (Nat × Nat)`;
  an *iterator* into it is its position (`hashmap_.begin() + element`), with
  `end()` rendered as `none` of an `Option Nat`.
* `indices_` (the `std::vector<std::list<size_t>>` of chains) is a
  `List (List Nat)`.  A `std::list` iterator is rendered as the pair
  (bucket, offset of the node in that chain); chain surgery never reorders
  nodes between taking an iterator and using it, so offsets are stable,
  exactly like `std::list` node identity.
* `size_t` arithmetic: the quantities involved (capacity, element count)
  never approach `2^64` in any behaviour the claims mention, so they are
  plain `Nat`; no operation of the class subtracts below zero on the
  defined paths.
* Undefined behaviour is made explicit: `hasher_(key) % capacity_` with
  `capacity_ == 0` (division by zero) is `UB.modByZero`; running a
  `std::list` iterator past `end()` in `FindInChainList` is `UB.chainMiss`;
  `hashmap_.back()` on an empty vector is `UB.emptyBack`.  Fallible
  operations therefore return `Except UB _`.
* `Rebuild` calls `insert`, which via `UpscaleIfNecessary` can call `Rebuild`
  again, so the C++ recursion is not structurally terminating on arbitrary
  states; the embedding threads a fuel argument (`UB.fuelOut` on exhaustion).
  On states satisfying the class invariant the nesting depth is at most one,
  and the public wrappers pass ample fuel.
-/

namespace Hashmap

/-- Undefined or non-returning behaviour of the C++ code, made explicit. -/
inductive UB where
  | modByZero : UB
  | chainMiss : UB
  | emptyBack : UB
  | fuelOut : UB
deriving DecidableEq, Repr

/-- State of `HashMap<Nat, Nat, hasher>`: the fields `capacity_`,
`stored_elements_`, `indices_`, `hashmap_`, `hasher_` of the C++ class. -/
structure HashMap where
  capacity : Nat
  stored_elements : Nat
  indices : List (List Nat)
  hashmap : List (Nat × Nat)
  hasher : Nat → Nat

/-- `static constexpr size_t kScalingFactor = 2;` -/
def kScalingFactor : Nat := 2

/-- `static constexpr size_t kMinLoadFactor = 4;` -/
def kMinLoadFactor : Nat := 4

/-- `static constexpr size_t kMaxLoadFactor = 2;` -/
def kMaxLoadFactor : Nat := 2

/-- Default-constructed map: `capacity_ = 1`, `stored_elements_ = 0`,
`indices_ = std::vector<std::list<size_t>>(capacity_)`, empty storage. -/
def mkHashMap (h : Nat → Nat) : HashMap :=
  { capacity := 1, stored_elements := 0, indices := [[]], hashmap := [], hasher := h }

/-- `GetBucketIndex`: `return hasher_(key) % capacity_;`.  With
`capacity_ == 0` the `%` is a division by zero — undefined behaviour. -/
def GetBucketIndex (m : HashMap) (key : Nat) : Except UB Nat :=
  if m.capacity = 0 then .error .modByZero
  else .ok (m.hasher key % m.capacity)

/-- The loop body of `find`: scan a chain, return the first recorded position
whose entry's key matches, as a position into `hashmap_` (the returned
iterator is `hashmap_.begin() + element`). -/
def findPos (hm : List (Nat × Nat)) : List Nat → Nat → Option Nat
  | [], _ => none
  | e :: rest, key =>
    if (hm.getD e (0, 0)).1 = key then some e else findPos hm rest key

/-- `find(key)`: returns `end()` (here `none`) when `capacity_ == 0`,
otherwise scans the chain of the key's bucket. -/
def find (m : HashMap) (key : Nat) : Option Nat :=
  if m.capacity = 0 then none
  else
    match GetBucketIndex m key with
    | .error _ => none
    | .ok b => findPos m.hashmap (m.indices.getD b []) key

mutual

/-- `insert(element)`: return the existing entry if the key is present;
otherwise consult the resize policy, then append the entry at position
`stored_elements_ - 1` (after the increment) and record that position in the
key's bucket chain.  Returns the state plus the position of the entry. -/
def insertF : Nat → HashMap → Nat × Nat → Except UB (HashMap × Nat)
  | fuel, m, e =>
    match find m e.1 with
    | some p => .ok (m, p)
    | none =>
      match fuel with
      | 0 => .error .fuelOut
      | f + 1 =>
        match UpscaleIfNecessaryF f m with
        | .error u => .error u
        | .ok m1 =>
          match GetBucketIndex m1 e.1 with
          | .error u => .error u
          | .ok pos =>
            .ok ({ m1 with
                    stored_elements := m1.stored_elements + 1,
                    indices := m1.indices.set pos
                      ((m1.indices.getD pos []).concat m1.stored_elements),
                    hashmap := m1.hashmap.concat e },
                 m1.stored_elements)
termination_by fuel _ _ => (fuel, 0, 0)

/-- `UpscaleIfNecessary`: if `stored_elements_ >= capacity_ * kMaxLoadFactor`,
double the capacity and rebuild. -/
def UpscaleIfNecessaryF : Nat → HashMap → Except UB HashMap
  | fuel, m =>
    if m.capacity * kMaxLoadFactor ≤ m.stored_elements then
      RebuildF fuel { m with capacity := m.capacity * kScalingFactor }
    else .ok m
termination_by fuel _ => (fuel, 3, 0)

/-- `Rebuild`: save the storage, reset the map to empty chains of the (new)
capacity, and re-`insert` every saved entry. -/
def RebuildF : Nat → HashMap → Except UB HashMap
  | fuel, m =>
    RebuildGo fuel
      { m with stored_elements := 0, hashmap := [],
               indices := List.replicate m.capacity [] }
      m.hashmap
termination_by fuel _ => (fuel, 2, 0)

/-- The `for (auto element : old_hashmap) insert(element);` loop of `Rebuild`. -/
def RebuildGo : Nat → HashMap → List (Nat × Nat) → Except UB HashMap
  | _, m, [] => .ok m
  | fuel, m, e :: rest =>
    match insertF fuel m e with
    | .error u => .error u
    | .ok (m1, _) => RebuildGo fuel m1 rest
termination_by fuel _ l => (fuel, 1, l.length)

end

/-- `DownscaleIfNecessary`: if `stored_elements_ * kMinLoadFactor <= capacity_`,
halve the capacity and rebuild. -/
def DownscaleIfNecessaryF (fuel : Nat) (m : HashMap) : Except UB HashMap :=
  if m.stored_elements * kMinLoadFactor ≤ m.capacity then
    RebuildF fuel { m with capacity := m.capacity / kScalingFactor }
  else .ok m

/-- `LastKey`: `hashmap_.back().first`; `back()` on an empty vector is
undefined behaviour. -/
def LastKey (m : HashMap) : Except UB Nat :=
  match m.hashmap.getLast? with
  | none => .error .emptyBack
  | some e => .ok e.1

/-- The scan of `FindInChainList`: the offset of the first chain node whose
recorded position is live (`< stored_elements_`) and whose entry's key
matches; running past the end of the chain is undefined behaviour. -/
def findOffset (hm : List (Nat × Nat)) (stored key : Nat) : List Nat → Option Nat
  | [] => none
  | q :: rest =>
    if q < stored ∧ (hm.getD q (0, 0)).1 = key then some 0
    else (findOffset hm stored key rest).map (· + 1)

/-- `FindInChainList(key)`: a `std::list` iterator into the chain of `key`'s
bucket, rendered as the pair (bucket, offset of the node in that chain). -/
def FindInChainList (m : HashMap) (key : Nat) : Except UB (Nat × Nat) :=
  match GetBucketIndex m key with
  | .error u => .error u
  | .ok b =>
    match findOffset m.hashmap m.stored_elements key (m.indices.getD b []) with
    | none => .error .chainMiss
    | some i => .ok (b, i)

/-- Dereference a chain iterator (`*it`). -/
def chainGet (m : HashMap) (it : Nat × Nat) : Nat :=
  (m.indices.getD it.1 []).getD it.2 0

/-- Assign through a chain iterator (`*it = v`). -/
def chainSet (m : HashMap) (it : Nat × Nat) (v : Nat) : HashMap :=
  { m with indices := m.indices.set it.1 ((m.indices.getD it.1 []).set it.2 v) }

/-- `std::swap(hashmap_[i], hashmap_[j])`. -/
def swapData (m : HashMap) (i j : Nat) : HashMap :=
  { m with hashmap :=
      match m.hashmap[i]?, m.hashmap[j]? with
      | some a, some b => (m.hashmap.set i b).set j a
      | _, _ => m.hashmap }

/-- `SwapWithLastIfNecessary(key)`: if the key's entry is not the last one in
storage, swap its chain node's recorded position with the last entry's chain
node's recorded position (`std::swap(*it_last, *it_key)`) and then swap the
two storage slots.  Returns the state and the iterator `it_key`. -/
def SwapWithLastIfNecessary (m : HashMap) (key : Nat) :
    Except UB (HashMap × (Nat × Nat)) :=
  match FindInChainList m key with
  | .error u => .error u
  | .ok itKey =>
    match LastKey m with
    | .error u => .error u
    | .ok lk =>
      if lk = key then .ok (m, itKey)
      else
        match FindInChainList m lk with
        | .error u => .error u
        | .ok itLast =>
          let vKey := chainGet m itKey
          let vLast := chainGet m itLast
          let m1 := chainSet (chainSet m itKey vLast) itLast vKey
          let m2 := swapData m1 (chainGet m1 itKey) (chainGet m1 itLast)
          .ok (m2, itKey)

/-- `EraseLastElement(iter)`: erase the node `iter` from the chain of the
current last entry's bucket, and `pop_back()` the storage. -/
def EraseLastElement (m : HashMap) (it : Nat × Nat) : Except UB HashMap :=
  match LastKey m with
  | .error u => .error u
  | .ok lk =>
    match GetBucketIndex m lk with
    | .error u => .error u
    | .ok b =>
      .ok { m with
              indices := m.indices.set b ((m.indices.getD b []).eraseIdx it.2),
              hashmap := m.hashmap.dropLast }

/-- `erase(key)`: nothing if the key is absent; otherwise swap-with-last,
erase the last element, decrement the count, and consult the shrink policy. -/
def eraseF (fuel : Nat) (m : HashMap) (key : Nat) : Except UB HashMap :=
  match find m key with
  | none => .ok m
  | some _ =>
    match SwapWithLastIfNecessary m key with
    | .error u => .error u
    | .ok (m1, it) =>
      match EraseLastElement m1 it with
      | .error u => .error u
      | .ok m2 =>
        DownscaleIfNecessaryF fuel { m2 with stored_elements := m2.stored_elements - 1 }

/-- Public `insert`, with ample fuel for the `Rebuild` recursion (on states
satisfying the class invariant a nesting depth of two suffices). -/
def insert (m : HashMap) (e : Nat × Nat) : Except UB (HashMap × Nat) :=
  insertF (m.stored_elements + 2) m e

/-- Public `erase`, with ample fuel for the `Rebuild` recursion. -/
def erase (m : HashMap) (key : Nat) : Except UB HashMap :=
  eraseF (m.stored_elements + 2) m key

/-- `clear()`: capacity back to 1, no entries, one empty chain. -/
def clear (m : HashMap) : HashMap :=
  { m with capacity := 1, stored_elements := 0, hashmap := [],
           indices := List.replicate 1 [] }

/-- `size()`: `return stored_elements_;`. -/
def size (m : HashMap) : Nat := m.stored_elements

/-- `empty()`: `return size() == 0;`. -/
def emptyQ (m : HashMap) : Bool := size m == 0

/-- `hash_function()`: `return hasher_;`. -/
def hash_function (m : HashMap) : Nat → Nat := m.hasher

/-- The error thrown by `at`: `std::out_of_range`. -/
inductive TableError where
  | out_of_range : TableError
deriving DecidableEq, Repr

/-- The value stored at position `p` (the `->second` of an iterator). -/
def valAt (m : HashMap) (p : Nat) : Nat := (m.hashmap.getD p (0, 0)).2

/-- `at(key)`: the value at the key's entry, or `throw std::out_of_range("")`
when `find(key) == end()`.  (`at` is a Lean keyword, hence the name.) -/
def atV (m : HashMap) (key : Nat) : Except TableError Nat :=
  match find m key with
  | none => .error .out_of_range
  | some p => .ok (valAt m p)

/-- A public mutating operation, for stating claims over operation sequences. -/
inductive Op where
  | insOp (k v : Nat) : Op
  | delOp (k : Nat) : Op
deriving DecidableEq, Repr

/-- Run one public operation. -/
def runOp (m : HashMap) : Op → Except UB HashMap
  | .insOp k v => (insert m (k, v)).map Prod.fst
  | .delOp k => erase m k

/-- Run a sequence of public operations. -/
def run (m : HashMap) : List Op → Except UB HashMap
  | [] => .ok m
  | op :: rest =>
    match runOp m op with
    | .error u => .error u
    | .ok m1 => run m1 rest

/-! ## Specification-side views of the state -/

/-- The key stored at position `p`. -/
def keyAt (m : HashMap) (p : Nat) : Nat := (m.hashmap.getD p (0, 0)).1

/-- The bucket a key belongs to, as a plain number (`hasher_(key) % capacity_`,
meaningful once `capacity_ ≠ 0`). -/
def bucketOf (m : HashMap) (k : Nat) : Nat := m.hasher k % m.capacity

/-- The chain of bucket `b` (`indices_[b]`). -/
def chainAt (m : HashMap) (b : Nat) : List Nat := m.indices.getD b []

/-- The keys currently stored, in storage order. -/
def keysOf (m : HashMap) : List Nat := m.hashmap.map Prod.fst

/-- `find` composed with the value at the returned iterator: what a lookup
observes. -/
def findValue (m : HashMap) (key : Nat) : Option Nat := (find m key).map (valAt m)

/-- The state the absent-key path of `insert` builds after the resize check:
the entry appended at the end of storage, its position pushed onto its
bucket's chain, the count incremented. -/
def appendEntry (m : HashMap) (e : Nat × Nat) : HashMap :=
  { m with
      stored_elements := m.stored_elements + 1,
      indices := m.indices.set (bucketOf m e.1)
        ((chainAt m (bucketOf m e.1)).concat m.stored_elements),
      hashmap := m.hashmap.concat e }

/-- The structural invariant the spec states for the table:
`stored_count == EntryStore.length`; every live entry's position lies in
exactly one chain, namely the one of `hash(key) mod capacity`; and no chain
contains a position `>= stored_count`. -/
def StructuralInvariant (m : HashMap) : Prop :=
  m.stored_elements = m.hashmap.length ∧
  (∀ p, p < m.stored_elements →
    m.indices.countP (fun c => decide (p ∈ c)) = 1 ∧
    p ∈ chainAt m (bucketOf m (keyAt m p))) ∧
  (∀ c ∈ m.indices, ∀ q ∈ c, q < m.stored_elements)

/-- The class invariant of reachable states.  The first, sixth and seventh
fields together are the spec's structural invariant; the rest is the
bookkeeping that keeps it inductive: the chain array has length `capacity_`,
the load never exceeds `kMaxLoadFactor`, stored keys are pairwise distinct,
and chains hold no duplicate positions. -/
structure Inv (m : HashMap) : Prop where
  stored_eq : m.stored_elements = m.hashmap.length
  idx_len : m.indices.length = m.capacity
  load : m.stored_elements ≤ m.capacity * kMaxLoadFactor
  keys_nodup : (keysOf m).Nodup
  sound : ∀ b < m.capacity, ∀ q ∈ chainAt m b,
    q < m.stored_elements ∧ bucketOf m (keyAt m q) = b
  complete : ∀ p < m.stored_elements, p ∈ chainAt m (bucketOf m (keyAt m p))
  chains_nodup : ∀ b < m.capacity, (chainAt m b).Nodup

/-- A run of public operations in which every `insert` is of an absent key
and every `erase` is of a present key — the hypotheses of the spec's size
bookkeeping property ("N inserts of distinct keys and M erases of keys known
present").  Each step records the operation's successful execution. -/
inductive ValidRun : HashMap → List Op → HashMap → Prop where
  | nil {m : HashMap} : ValidRun m [] m
  | ins {m m1 m2 : HashMap} {k v q fuel : Nat} {ops : List Op} :
      find m k = none → insertF fuel m (k, v) = .ok (m1, q) →
      ValidRun m1 ops m2 → ValidRun m (Op.insOp k v :: ops) m2
  | del {m m1 m2 : HashMap} {k p fuel : Nat} {ops : List Op} :
      find m k = some p → eraseF fuel m k = .ok m1 →
      ValidRun m1 ops m2 → ValidRun m (Op.delOp k :: ops) m2

/-- Number of insert operations in a sequence (the spec's `N`). -/
def countIns : List Op → Nat
  | [] => 0
  | .insOp _ _ :: rest => countIns rest + 1
  | .delOp _ :: rest => countIns rest

/-- Number of erase operations in a sequence (the spec's `M`). -/
def countDel : List Op → Nat
  | [] => 0
  | .insOp _ _ :: rest => countDel rest
  | .delOp _ :: rest => countDel rest + 1

/-! ## List bookkeeping lemmas

Generic facts about `List.set` / `List.eraseIdx`, the two primitives the
chain surgery of `erase` reduces to. -/

theorem set_eraseIdx_self {α : Type} : ∀ (l : List α) (i : Nat) (x : α),
    (l.set i x).eraseIdx i = l.eraseIdx i
  | [], _, _ => rfl
  | _ :: _, 0, _ => rfl
  | a :: t, i + 1, x => by
    simp only [List.set_cons_succ, List.eraseIdx_cons_succ,
      set_eraseIdx_self t i x]

theorem count_set_add {α : Type} [DecidableEq α] :
    ∀ (l : List α) (j : Nat) (hj : j < l.length) (x a : α),
      (l.set j x).count a + (if l[j] = a then 1 else 0)
        = l.count a + (if x = a then 1 else 0)
  | b :: t, 0, _, x, a => by
    simp only [List.set_cons_zero, List.count_cons, List.getElem_cons_zero,
      beq_iff_eq]
    omega
  | b :: t, j + 1, hj, x, a => by
    have ih := count_set_add t j (by simpa using hj) x a
    simp only [List.set_cons_succ, List.count_cons, List.getElem_cons_succ,
      beq_iff_eq]
    omega

theorem count_eraseIdx_add {α : Type} [DecidableEq α] :
    ∀ (l : List α) (i : Nat) (hi : i < l.length) (a : α),
      (l.eraseIdx i).count a + (if l[i] = a then 1 else 0) = l.count a
  | b :: t, 0, _, a => by
    simp only [List.eraseIdx_zero, List.tail_cons, List.count_cons,
      List.getElem_cons_zero, beq_iff_eq]
  | b :: t, i + 1, hi, a => by
    have ih := count_eraseIdx_add t i (by simpa using hi) a
    simp only [List.eraseIdx_cons_succ, List.count_cons,
      List.getElem_cons_succ, beq_iff_eq]
    omega

theorem mem_set_iff_getElem {α : Type} {l : List α} {j : Nat} {x a : α}
    (hj : j < l.length) :
    a ∈ l.set j x ↔ a = x ∨ ∃ i, ∃ h : i < l.length, i ≠ j ∧ l[i] = a := by
  rw [List.mem_iff_getElem]
  constructor
  · rintro ⟨n, hn, hv⟩
    rw [List.length_set] at hn
    rw [List.getElem_set] at hv
    by_cases hjn : j = n
    · subst hjn; simp only [if_pos rfl] at hv; exact Or.inl hv.symm
    · exact Or.inr ⟨n, hn, fun h => hjn h.symm, by simpa [hjn] using hv⟩
  · rintro (rfl | ⟨i, hi, hij, hv⟩)
    · exact ⟨j, by simpa using hj, by simp⟩
    · exact ⟨i, by simpa using hi, by
        rw [List.getElem_set_ne (fun h => hij h.symm)]; exact hv⟩

theorem mem_set_nodup {α : Type} {l : List α} {j : Nat} {x a : α}
    (hl : l.Nodup) (hj : j < l.length) :
    a ∈ l.set j x ↔ a = x ∨ (a ∈ l ∧ a ≠ l[j]) := by
  rw [mem_set_iff_getElem hj]
  constructor
  · rintro (rfl | ⟨i, hi, hij, hv⟩)
    · exact Or.inl rfl
    · refine Or.inr ⟨hv ▸ List.getElem_mem hi, fun hEq => hij ?_⟩
      exact (List.Nodup.getElem_inj_iff hl).1 (hv.trans hEq)
  · rintro (rfl | ⟨hmem, hne⟩)
    · exact Or.inl rfl
    · obtain ⟨i, hi, hv⟩ := List.mem_iff_getElem.1 hmem
      exact Or.inr ⟨i, hi, fun hEq => hne (hEq ▸ hv ▸ rfl), hv⟩

theorem mem_eraseIdx_nodup {α : Type} {l : List α} {i : Nat} {a : α}
    (hl : l.Nodup) (hi : i < l.length) :
    a ∈ l.eraseIdx i ↔ a ∈ l ∧ a ≠ l[i] := by
  rw [List.mem_eraseIdx_iff_getElem]
  constructor
  · rintro ⟨t, ht, hti, hv⟩
    refine ⟨hv ▸ List.getElem_mem ht, fun hEq => hti ?_⟩
    exact (List.Nodup.getElem_inj_iff hl).1 (hv.trans hEq)
  · rintro ⟨hmem, hne⟩
    obtain ⟨t, ht, hv⟩ := List.mem_iff_getElem.1 hmem
    exact ⟨t, ht, fun hEq => hne (hEq ▸ hv ▸ rfl), hv⟩

theorem nodup_set_of_not_mem {α : Type} :
    ∀ {l : List α} {j : Nat} {x : α}, l.Nodup → x ∉ l → (l.set j x).Nodup
  | [], _, _, _, _ => by simp
  | a :: t, 0, x, h, hx => by
    rw [List.nodup_cons] at h
    rw [List.set_cons_zero, List.nodup_cons]
    exact ⟨fun hxt => hx (List.mem_cons_of_mem a hxt), h.2⟩
  | a :: t, j + 1, x, h, hx => by
    rw [List.nodup_cons] at h
    rw [List.set_cons_succ, List.nodup_cons]
    refine ⟨fun hmem => ?_, nodup_set_of_not_mem h.2 fun hxt =>
      hx (List.mem_cons_of_mem a hxt)⟩
    rcases List.mem_or_eq_of_mem_set hmem with hat | rfl
    · exact h.1 hat
    · exact hx (List.mem_cons_self a t)

theorem nodup_of_count_le_one {α : Type} [DecidableEq α] {l : List α}
    (h : ∀ a, l.count a ≤ 1) : l.Nodup :=
  List.nodup_iff_count_le_one.2 h

theorem count_le_one_of_nodup {α : Type} [DecidableEq α] {l : List α}
    (h : l.Nodup) (a : α) : l.count a ≤ 1 :=
  List.nodup_iff_count_le_one.1 h a

/-! ## Characterisation of `find` on states satisfying the invariant -/

theorem keyAt_eq_getElem {m : HashMap} {p : Nat} (hp : p < m.hashmap.length) :
    keyAt m p = (m.hashmap[p]).1 := by
  rw [keyAt, List.getD_eq_getElem m.hashmap (0, 0) hp]

theorem valAt_eq_getElem {m : HashMap} {p : Nat} (hp : p < m.hashmap.length) :
    valAt m p = (m.hashmap[p]).2 := by
  rw [valAt, List.getD_eq_getElem m.hashmap (0, 0) hp]

theorem keyAt_inj {m : HashMap} (hm : Inv m) {p q : Nat}
    (hp : p < m.stored_elements) (hq : q < m.stored_elements)
    (h : keyAt m p = keyAt m q) : p = q := by
  rw [hm.stored_eq] at hp hq
  rw [keyAt_eq_getElem hp, keyAt_eq_getElem hq] at h
  have hp' : p < (keysOf m).length := by simpa [keysOf] using hp
  have hq' : q < (keysOf m).length := by simpa [keysOf] using hq
  have : (keysOf m)[p] = (keysOf m)[q] := by
    simpa [keysOf] using h
  exact (List.Nodup.getElem_inj_iff hm.keys_nodup).1 this

theorem mem_keysOf_iff {m : HashMap} {k : Nat} :
    k ∈ keysOf m ↔ ∃ p, ∃ _h : p < m.hashmap.length, keyAt m p = k := by
  constructor
  · intro hk
    obtain ⟨p, hp, hv⟩ := List.mem_iff_getElem.1 hk
    rw [keysOf, List.length_map] at hp
    refine ⟨p, hp, ?_⟩
    rw [keyAt_eq_getElem hp]
    simpa [keysOf] using hv
  · rintro ⟨p, hp, hv⟩
    rw [keyAt_eq_getElem hp] at hv
    exact hv ▸ List.mem_map_of_mem Prod.fst (List.getElem_mem hp)

theorem findPos_sound {hm : List (Nat × Nat)} :
    ∀ {chain : List Nat} {key p : Nat}, findPos hm chain key = some p →
      p ∈ chain ∧ (hm.getD p (0, 0)).1 = key
  | [], _, _, h => by simp [findPos] at h
  | q :: rest, key, p, h => by
    rw [findPos] at h
    by_cases hq : (hm.getD q (0, 0)).1 = key
    · rw [if_pos hq] at h
      cases h
      exact ⟨List.mem_cons_self q rest, hq⟩
    · rw [if_neg hq] at h
      obtain ⟨hmem, hkey⟩ := findPos_sound h
      exact ⟨List.mem_cons_of_mem q hmem, hkey⟩

theorem findPos_none {hm : List (Nat × Nat)} :
    ∀ {chain : List Nat} {key : Nat},
      (∀ q ∈ chain, (hm.getD q (0, 0)).1 ≠ key) → findPos hm chain key = none
  | [], _, _ => rfl
  | q :: rest, key, h => by
    rw [findPos, if_neg (h q (List.mem_cons_self q rest))]
    exact findPos_none fun r hr => h r (List.mem_cons_of_mem q hr)

theorem findPos_isSome {hm : List (Nat × Nat)} :
    ∀ {chain : List Nat} {key p : Nat}, p ∈ chain →
      (hm.getD p (0, 0)).1 = key → ∃ q, findPos hm chain key = some q
  | [], _, _, hp, _ => absurd hp (List.not_mem_nil _)
  | q :: rest, key, p, hp, hk => by
    rw [findPos]
    by_cases hq : (hm.getD q (0, 0)).1 = key
    · exact ⟨q, if_pos hq⟩
    · rw [if_neg hq]
      rcases List.mem_cons.1 hp with rfl | hp'
      · exact absurd hk hq
      · exact findPos_isSome hp' hk

theorem cap_pos_of_stored {m : HashMap} (hm : Inv m)
    (h : 0 < m.stored_elements) : 0 < m.capacity := by
  by_contra hc
  have hc0 : m.capacity = 0 := by omega
  have h0 := hm.complete 0 h
  have hlen : m.indices.length = 0 := by rw [hm.idx_len, hc0]
  have : chainAt m (bucketOf m (keyAt m 0)) = [] := by
    rw [chainAt, List.getD_eq_default _ _ (by omega)]
  rw [this] at h0
  exact List.not_mem_nil 0 h0

theorem bucketOf_lt {m : HashMap} (hc : 0 < m.capacity) (k : Nat) :
    bucketOf m k < m.capacity :=
  Nat.mod_lt _ hc

theorem find_eq_findPos {m : HashMap} (hc : 0 < m.capacity) (k : Nat) :
    find m k = findPos m.hashmap (chainAt m (bucketOf m k)) k := by
  rw [find, if_neg (by omega), GetBucketIndex, if_neg (by omega)]
  rfl

theorem find_spec_some {m : HashMap} (hm : Inv m) {k p : Nat}
    (h : find m k = some p) : p < m.stored_elements ∧ keyAt m p = k := by
  by_cases hc : m.capacity = 0
  · rw [find, if_pos hc] at h; cases h
  · rw [find_eq_findPos (by omega)] at h
    obtain ⟨hmem, hkey⟩ := findPos_sound h
    have hb := bucketOf_lt (by omega) (m := m) k
    obtain ⟨hlt, _⟩ := hm.sound _ hb p hmem
    exact ⟨hlt, hkey⟩

theorem find_complete {m : HashMap} (hm : Inv m) {k p : Nat}
    (hp : p < m.stored_elements) (hk : keyAt m p = k) : find m k = some p := by
  have hc : 0 < m.capacity := cap_pos_of_stored hm (by omega)
  rw [find_eq_findPos hc]
  have hmem : p ∈ chainAt m (bucketOf m k) := by
    have := hm.complete p hp
    rwa [hk] at this
  obtain ⟨q, hq⟩ := findPos_isSome hmem hk
  obtain ⟨hqmem, hqkey⟩ := findPos_sound hq
  obtain ⟨hqlt, _⟩ := hm.sound _ (bucketOf_lt hc k) q hqmem
  have : q = p := keyAt_inj hm hqlt hp (hqkey.trans hk.symm)
  rwa [this] at hq

theorem find_none_iff {m : HashMap} (hm : Inv m) {k : Nat} :
    find m k = none ↔ ∀ p, p < m.stored_elements → keyAt m p ≠ k := by
  constructor
  · intro h p hp hk
    rw [find_complete hm hp hk] at h
    cases h
  · intro h
    cases hfind : find m k with
    | none => rfl
    | some p =>
      obtain ⟨hp, hk⟩ := find_spec_some hm hfind
      exact absurd hk (h p hp)

theorem findValue_some_iff {m : HashMap} (hm : Inv m) {k v : Nat} :
    findValue m k = some v ↔ (k, v) ∈ m.hashmap := by
  constructor
  · intro h
    rw [findValue] at h
    cases hfind : find m k with
    | none => rw [hfind] at h; cases h
    | some p =>
      rw [hfind] at h
      obtain ⟨hp, hk⟩ := find_spec_some hm hfind
      rw [hm.stored_eq] at hp
      have hv : valAt m p = v := by simpa using h
      have : m.hashmap[p] = (k, v) := by
        rw [keyAt_eq_getElem hp] at hk
        rw [valAt_eq_getElem hp] at hv
        exact Prod.ext hk hv
      exact this ▸ List.getElem_mem hp
  · intro h
    obtain ⟨p, hp, hv⟩ := List.mem_iff_getElem.1 h
    have hk : keyAt m p = k := by rw [keyAt_eq_getElem hp, hv]
    have hval : valAt m p = v := by rw [valAt_eq_getElem hp, hv]
    have hfind := find_complete hm (by rw [hm.stored_eq]; exact hp) hk
    rw [findValue, hfind, Option.map_some', hval]

theorem findValue_none_iff {m : HashMap} (hm : Inv m) {k : Nat} :
    findValue m k = none ↔ k ∉ keysOf m := by
  rw [findValue, Option.map_eq_none']
  rw [find_none_iff hm, mem_keysOf_iff]
  rw [hm.stored_eq]
  constructor
  · rintro h ⟨p, hp, hk⟩
    exact h p hp hk
  · intro h p hp hk
    exact h ⟨p, hp, hk⟩

theorem findValue_congr {m m' : HashMap} (hm : Inv m) (hm' : Inv m')
    (h : m'.hashmap = m.hashmap) (k : Nat) : findValue m' k = findValue m k := by
  cases hfv : findValue m k with
  | none =>
    rw [findValue_none_iff hm] at hfv
    rw [findValue_none_iff hm']
    rwa [keysOf, h, ← keysOf]
  | some v =>
    rw [findValue_some_iff hm] at hfv
    rw [findValue_some_iff hm', h]
    exact hfv

theorem not_mem_keys_of_find_none {m : HashMap} (hm : Inv m) {k : Nat}
    (h : find m k = none) : k ∉ keysOf m := by
  rw [find_none_iff hm] at h
  intro hk
  obtain ⟨p, hp, he⟩ := mem_keysOf_iff.1 hk
  exact h p (by rw [hm.stored_eq]; exact hp) he

theorem find_none_of_not_mem {m : HashMap} (hm : Inv m) {k : Nat}
    (h : k ∉ keysOf m) : find m k = none :=
  (find_none_iff hm).2 fun p hp hk =>
    h (mem_keysOf_iff.2 ⟨p, by rw [← hm.stored_eq]; exact hp, hk⟩)

/-! ## `insert`: the two paths, and invariant preservation of the append -/

theorem getD_set_self {α : Type} {l : List α} {b : Nat} {c d : α}
    (hb : b < l.length) : (l.set b c).getD b d = c := by
  rw [List.getD_eq_getElem _ _ (by simpa using hb), List.getElem_set_self]

theorem getD_set_ne {α : Type} {l : List α} {b b' : Nat} {c d : α}
    (h : b ≠ b') : (l.set b c).getD b' d = l.getD b' d := by
  by_cases hb' : b' < l.length
  · rw [List.getD_eq_getElem _ _ (by simpa using hb'),
      List.getElem_set_ne h, List.getD_eq_getElem _ _ hb']
  · rw [List.getD_eq_default _ _ (by simpa using (by omega : l.length ≤ b')),
      List.getD_eq_default _ _ (by omega)]

theorem getD_concat_lt {α : Type} {l : List α} {x d : α} {p : Nat}
    (hp : p < l.length) : (l.concat x).getD p d = l.getD p d := by
  rw [List.concat_eq_append,
    List.getD_eq_getElem _ _ (by simp; omega),
    List.getElem_append_left hp, List.getD_eq_getElem _ _ hp]

theorem getD_concat_len {α : Type} {l : List α} {x d : α} :
    (l.concat x).getD l.length d = x := by
  rw [List.concat_eq_append,
    List.getD_eq_getElem _ _
      (by rw [List.length_append, List.length_singleton]; omega),
    List.getElem_concat_length]
  rfl

theorem GetBucketIndex_ok {m : HashMap} (hc : m.capacity ≠ 0) (k : Nat) :
    GetBucketIndex m k = .ok (bucketOf m k) := by
  rw [GetBucketIndex, if_neg hc]; rfl

theorem insert_found {m : HashMap} {e : Nat × Nat} {p fuel : Nat}
    (h : find m e.1 = some p) : insertF fuel m e = .ok (m, p) := by
  cases fuel with
  | zero => rw [insertF.eq_1, h]
  | succ f => rw [insertF.eq_2, h]

theorem upscale_not {m : HashMap} {fuel : Nat}
    (h : ¬ m.capacity * kMaxLoadFactor ≤ m.stored_elements) :
    UpscaleIfNecessaryF fuel m = .ok m := by
  rw [UpscaleIfNecessaryF.eq_1, if_neg h]

theorem insert_notFull {m : HashMap} {e : Nat × Nat} {f : Nat}
    (h1 : find m e.1 = none)
    (h2 : ¬ m.capacity * kMaxLoadFactor ≤ m.stored_elements) :
    insertF (f + 1) m e = .ok (appendEntry m e, m.stored_elements) := by
  have hc : m.capacity ≠ 0 := by
    intro h0
    exact h2 (by rw [h0]; omega)
  simp only [insertF.eq_2, h1, upscale_not h2, GetBucketIndex_ok hc]
  rfl

theorem keyAt_appendEntry_lt {m : HashMap} {e : Nat × Nat} {p : Nat}
    (hp : p < m.hashmap.length) : keyAt (appendEntry m e) p = keyAt m p := by
  rw [keyAt, keyAt, appendEntry]
  exact congrArg Prod.fst (getD_concat_lt hp)

theorem keyAt_appendEntry_last {m : HashMap} {e : Nat × Nat} :
    keyAt (appendEntry m e) m.hashmap.length = e.1 := by
  rw [keyAt, appendEntry]
  exact congrArg Prod.fst getD_concat_len

theorem chainAt_appendEntry {m : HashMap} {e : Nat × Nat} {b : Nat} :
    chainAt (appendEntry m e) b =
      if bucketOf m e.1 = b ∧ bucketOf m e.1 < m.indices.length
      then (chainAt m b).concat m.stored_elements
      else chainAt m b := by
  by_cases hb : bucketOf m e.1 = b
  · by_cases hlt : bucketOf m e.1 < m.indices.length
    · rw [if_pos ⟨hb, hlt⟩, chainAt, appendEntry]
      subst hb
      rw [getD_set_self hlt]
    · rw [if_neg (fun hc => hlt hc.2), chainAt, chainAt, appendEntry]
      subst hb
      rw [List.getD_eq_default _ _ (by rw [List.length_set]; omega),
        List.getD_eq_default _ _ (by omega)]
  · rw [if_neg (fun hc => hb hc.1), chainAt, chainAt, appendEntry]
    exact getD_set_ne hb

theorem append_Inv {m : HashMap} {e : Nat × Nat} (hm : Inv m)
    (h1 : find m e.1 = none)
    (h2 : m.stored_elements < m.capacity * kMaxLoadFactor) :
    Inv (appendEntry m e) := by
  have hc : 0 < m.capacity := by
    by_contra hc0
    rw [(by omega : m.capacity = 0)] at h2
    omega
  have hblt : bucketOf m e.1 < m.capacity := bucketOf_lt hc e.1
  have hbidx : bucketOf m e.1 < m.indices.length := by rw [hm.idx_len]; exact hblt
  have hkeys : e.1 ∉ keysOf m := not_mem_keys_of_find_none hm h1
  have hchain : ∀ b, chainAt (appendEntry m e) b =
      if bucketOf m e.1 = b then (chainAt m b).concat m.stored_elements
      else chainAt m b := by
    intro b
    rw [chainAt_appendEntry]
    by_cases hb : bucketOf m e.1 = b
    · rw [if_pos ⟨hb, hbidx⟩, if_pos hb]
    · rw [if_neg (fun hq => hb hq.1), if_neg hb]
  have hstored : (appendEntry m e).stored_elements = m.stored_elements + 1 := rfl
  have hcap : (appendEntry m e).capacity = m.capacity := rfl
  have hbucket : ∀ k, bucketOf (appendEntry m e) k = bucketOf m k := fun _ => rfl
  constructor
  · show m.stored_elements + 1 = (m.hashmap.concat e).length
    rw [List.length_concat, hm.stored_eq]
  · show (m.indices.set (bucketOf m e.1) _).length = m.capacity
    rw [List.length_set]
    exact hm.idx_len
  · show m.stored_elements + 1 ≤ m.capacity * kMaxLoadFactor
    omega
  · show ((m.hashmap.concat e).map Prod.fst).Nodup
    simp only [List.map_concat]
    rw [List.concat_eq_append, List.nodup_append]
    refine ⟨hm.keys_nodup, List.nodup_singleton _, ?_⟩
    intro a ha hb
    rw [List.mem_singleton] at hb
    subst hb
    exact hkeys ha
  · intro b hb q hq
    rw [hchain b] at hq
    rw [hcap] at hb
    rw [hstored]
    by_cases hbe : bucketOf m e.1 = b
    · rw [if_pos hbe, List.concat_eq_append, List.mem_append] at hq
      rcases hq with hq | hq
      · obtain ⟨hlt, hbk⟩ := hm.sound b hb q hq
        refine ⟨by omega, ?_⟩
        rw [keyAt_appendEntry_lt (by rw [← hm.stored_eq]; exact hlt), hbucket]
        exact hbk
      · rw [List.mem_singleton] at hq
        subst hq
        refine ⟨by omega, ?_⟩
        rw [hm.stored_eq, keyAt_appendEntry_last, hbucket]
        exact hbe
    · rw [if_neg hbe] at hq
      obtain ⟨hlt, hbk⟩ := hm.sound b hb q hq
      refine ⟨by omega, ?_⟩
      rw [keyAt_appendEntry_lt (by rw [← hm.stored_eq]; exact hlt), hbucket]
      exact hbk
  · intro p hp
    rw [hstored] at hp
    by_cases hpe : p < m.stored_elements
    · have hk : keyAt (appendEntry m e) p = keyAt m p :=
        keyAt_appendEntry_lt (by rw [← hm.stored_eq]; exact hpe)
      rw [hk, hbucket, hchain]
      by_cases hbe : bucketOf m e.1 = bucketOf m (keyAt m p)
      · rw [if_pos hbe, List.concat_eq_append, List.mem_append]
        exact Or.inl (hm.complete p hpe)
      · rw [if_neg hbe]
        exact hm.complete p hpe
    · have hpl : p = m.stored_elements := by omega
      subst hpl
      have hk : keyAt (appendEntry m e) m.stored_elements = e.1 := by
        rw [hm.stored_eq, keyAt_appendEntry_last]
      rw [hk, hbucket, hchain, if_pos rfl, List.concat_eq_append,
        List.mem_append]
      exact Or.inr (List.mem_singleton.2 rfl)
  · intro b hb
    rw [hcap] at hb
    rw [hchain b]
    by_cases hbe : bucketOf m e.1 = b
    · rw [if_pos hbe, List.concat_eq_append, List.nodup_append]
      refine ⟨hm.chains_nodup b hb, List.nodup_singleton _, ?_⟩
      intro a ha hmem
      rw [List.mem_singleton] at hmem
      subst hmem
      obtain ⟨hlt, _⟩ := hm.sound b hb _ ha
      omega
    · rw [if_neg hbe]
      exact hm.chains_nodup b hb

/-! ## `Rebuild` and the resize policy: conditional correctness -/

theorem rebuildGo_spec {rest : List (Nat × Nat)} :
    ∀ {fuel : Nat} {m m' : HashMap},
    RebuildGo fuel m rest = .ok m' → Inv m →
    ((m.hashmap ++ rest).map Prod.fst).Nodup →
    m.stored_elements + rest.length ≤ m.capacity * kMaxLoadFactor →
    (0 < m.capacity ∨ rest = []) →
    m'.hashmap = m.hashmap ++ rest ∧ m'.capacity = m.capacity ∧
    m'.hasher = m.hasher ∧
    m'.stored_elements = m.stored_elements + rest.length ∧ Inv m' := by
  induction rest with
  | nil =>
    intro fuel m m' h hm _ _ _
    rw [RebuildGo.eq_1] at h
    injection h with h
    subst h
    exact ⟨by simp, rfl, rfl, by simp, hm⟩
  | cons e rest ih =>
    intro fuel m m' h hm hnodup hload hcap
    rw [List.length_cons] at hload
    have hcap' : 0 < m.capacity := by
      rcases hcap with hcap | hcap
      · exact hcap
      · simp at hcap
    have hnd := hnodup
    rw [List.map_append, List.nodup_append] at hnd
    obtain ⟨-, -, hdisj⟩ := hnd
    have he1 : e.1 ∉ keysOf m := fun hmem => hdisj hmem (by simp)
    have hfind : find m e.1 = none := find_none_of_not_mem hm he1
    rw [RebuildGo.eq_2] at h
    cases hins : insertF fuel m e with
    | error u => rw [hins] at h; simp at h
    | ok r =>
      obtain ⟨m1, q⟩ := r
      rw [hins] at h
      change RebuildGo fuel m1 rest = Except.ok m' at h
      cases fuel with
      | zero => rw [insertF.eq_1, hfind] at hins; simp at hins
      | succ f =>
        have hnotfull : ¬ m.capacity * kMaxLoadFactor ≤ m.stored_elements := by
          omega
        rw [insert_notFull hfind hnotfull] at hins
        simp only [Except.ok.injEq, Prod.mk.injEq] at hins
        obtain ⟨hm1, -⟩ := hins
        subst hm1
        have happ : (appendEntry m e).hashmap ++ rest = m.hashmap ++ e :: rest := by
          show m.hashmap.concat e ++ rest = _
          rw [List.concat_eq_append, List.append_assoc, List.singleton_append]
        obtain ⟨ih1, ih2, ih3, ih4, ih5⟩ := ih h
          (append_Inv hm hfind (by omega))
          (by rw [happ]; exact hnodup)
          (by show m.stored_elements + 1 + rest.length ≤ m.capacity * kMaxLoadFactor
              omega)
          (Or.inl hcap')
        refine ⟨by rw [ih1, happ], ih2, ih3, ?_, ih5⟩
        rw [ih4]
        show m.stored_elements + 1 + rest.length = m.stored_elements + (rest.length + 1)
        omega

theorem inv_emptied {m0 : HashMap} (hs : m0.stored_elements = 0)
    (hh : m0.hashmap = []) (hi : m0.indices = List.replicate m0.capacity []) :
    Inv m0 := by
  have hchain : ∀ b, b < m0.capacity → chainAt m0 b = [] := by
    intro b hb
    rw [chainAt, hi,
      List.getD_eq_getElem _ _ (by rw [List.length_replicate]; exact hb)]
    exact List.getElem_replicate ..
  constructor
  · rw [hs, hh]; rfl
  · rw [hi, List.length_replicate]
  · rw [hs]; omega
  · show (m0.hashmap.map Prod.fst).Nodup
    rw [hh]; simp
  · intro b hb q hq
    rw [hchain b hb] at hq
    exact absurd hq (List.not_mem_nil q)
  · intro p hp
    rw [hs] at hp
    exact absurd hp (by omega)
  · intro b hb
    rw [hchain b hb]
    exact List.nodup_nil

theorem rebuildF_spec {fuel : Nat} {m m' : HashMap}
    (h : RebuildF fuel m = .ok m')
    (hnd : (keysOf m).Nodup)
    (hlen : m.hashmap.length ≤ m.capacity * kMaxLoadFactor)
    (hcap : 0 < m.capacity ∨ m.hashmap = []) :
    m'.hashmap = m.hashmap ∧ m'.capacity = m.capacity ∧
    m'.hasher = m.hasher ∧ m'.stored_elements = m.hashmap.length ∧ Inv m' := by
  rw [RebuildF.eq_1] at h
  obtain ⟨h1, h2, h3, h4, h5⟩ := rebuildGo_spec h (inv_emptied rfl rfl rfl)
    (by show ((([] : List (Nat × Nat)) ++ m.hashmap).map Prod.fst).Nodup
        rw [List.nil_append]; exact hnd)
    (by show 0 + m.hashmap.length ≤ m.capacity * kMaxLoadFactor; omega)
    hcap
  refine ⟨?_, h2, h3, ?_, h5⟩
  · rw [h1]
    exact List.nil_append m.hashmap
  · rw [h4]
    show (0 : Nat) + m.hashmap.length = m.hashmap.length
    omega

theorem upscale_spec {fuel : Nat} {m m1 : HashMap} (hm : Inv m)
    (h : UpscaleIfNecessaryF fuel m = .ok m1) :
    m1.hashmap = m.hashmap ∧ m1.stored_elements = m.stored_elements ∧
    m1.hasher = m.hasher ∧
    m1.capacity = (if m.capacity * kMaxLoadFactor ≤ m.stored_elements
      then m.capacity * kScalingFactor else m.capacity) ∧
    Inv m1 ∧
    (m.stored_elements < m1.capacity * kMaxLoadFactor ∨ m1.capacity = 0) := by
  rw [UpscaleIfNecessaryF.eq_1] at h
  by_cases ht : m.capacity * kMaxLoadFactor ≤ m.stored_elements
  · rw [if_pos ht] at h
    have hse := hm.stored_eq
    have hld := hm.load
    obtain ⟨h1, h2, h3, h4, h5⟩ := rebuildF_spec h hm.keys_nodup
      (by show m.hashmap.length ≤ m.capacity * kScalingFactor * kMaxLoadFactor
          simp only [kScalingFactor, kMaxLoadFactor] at *
          omega)
      (by by_cases hc0 : m.capacity = 0
          · refine Or.inr ?_
            show m.hashmap = []
            have : m.hashmap.length = 0 := by
              simp only [kMaxLoadFactor] at hld
              omega
            exact List.eq_nil_of_length_eq_zero this
          · exact Or.inl (by show 0 < m.capacity * kScalingFactor
                             simp only [kScalingFactor]; omega))
    refine ⟨h1, by rw [h4, ← hse], h3, by rw [if_pos ht]; exact h2, h5, ?_⟩
    by_cases hc0 : m.capacity = 0
    · refine Or.inr ?_
      rw [h2, hc0]
      show 0 * kScalingFactor = 0
      simp
    · refine Or.inl ?_
      rw [h2]
      show m.stored_elements < m.capacity * kScalingFactor * kMaxLoadFactor
      simp only [kScalingFactor, kMaxLoadFactor] at *
      omega
  · rw [if_neg ht] at h
    injection h with h
    subst h
    exact ⟨rfl, rfl, rfl, by rw [if_neg ht], hm, Or.inl (by omega)⟩

theorem downscale_spec {fuel : Nat} {m m1 : HashMap} (hm : Inv m)
    (h : DownscaleIfNecessaryF fuel m = .ok m1) :
    m1.hashmap = m.hashmap ∧ m1.stored_elements = m.stored_elements ∧
    m1.hasher = m.hasher ∧
    m1.capacity = (if m.stored_elements * kMinLoadFactor ≤ m.capacity
      then m.capacity / kScalingFactor else m.capacity) ∧
    Inv m1 := by
  rw [DownscaleIfNecessaryF] at h
  by_cases ht : m.stored_elements * kMinLoadFactor ≤ m.capacity
  · rw [if_pos ht] at h
    have hse := hm.stored_eq
    obtain ⟨h1, h2, h3, h4, h5⟩ := rebuildF_spec h hm.keys_nodup
      (by show m.hashmap.length ≤ m.capacity / kScalingFactor * kMaxLoadFactor
          simp only [kScalingFactor, kMaxLoadFactor, kMinLoadFactor] at *
          omega)
      (by by_cases hc0 : m.capacity / kScalingFactor = 0
          · refine Or.inr ?_
            show m.hashmap = []
            refine List.eq_nil_of_length_eq_zero ?_
            simp only [kScalingFactor, kMinLoadFactor] at *
            omega
          · exact Or.inl (by
              show 0 < m.capacity / kScalingFactor
              simp only [kScalingFactor] at hc0 ⊢
              omega))
    exact ⟨h1, by rw [h4, ← hse], h3, by rw [if_pos ht]; exact h2, h5⟩
  · rw [if_neg ht] at h
    injection h with h
    subst h
    exact ⟨rfl, rfl, rfl, by rw [if_neg ht], hm⟩

/-! ## `insert` on the absent-key path: full conditional specification -/

theorem insert_spec {fuel : Nat} {m : HashMap} {e : Nat × Nat}
    {r : HashMap × Nat} (hm : Inv m) (hfind : find m e.1 = none)
    (h : insertF fuel m e = .ok r) :
    r.2 = m.stored_elements ∧
    r.1.hashmap = m.hashmap ++ [e] ∧
    r.1.stored_elements = m.stored_elements + 1 ∧
    r.1.hasher = m.hasher ∧
    r.1.capacity = (if m.capacity * kMaxLoadFactor ≤ m.stored_elements
      then m.capacity * kScalingFactor else m.capacity) ∧
    Inv r.1 ∧ 0 < m.capacity := by
  cases fuel with
  | zero => rw [insertF.eq_1, hfind] at h; simp at h
  | succ f =>
    rw [insertF.eq_2, hfind] at h
    cases hU : UpscaleIfNecessaryF f m with
    | error u => rw [hU] at h; simp at h
    | ok m1 =>
      simp only [hU] at h
      obtain ⟨hmap, hstored, hhash, hcapEq, hInv1, hextra⟩ := upscale_spec hm hU
      cases hGB : GetBucketIndex m1 e.1 with
      | error u => rw [hGB] at h; simp at h
      | ok pos =>
        simp only [hGB] at h
        have hc1 : m1.capacity ≠ 0 := by
          intro h0
          rw [GetBucketIndex, if_pos h0] at hGB
          simp at hGB
        have hpos : pos = bucketOf m1 e.1 := by
          rw [GetBucketIndex_ok hc1] at hGB
          injection hGB with hGB
          exact hGB.symm
        subst hpos
        rw [Except.ok.injEq] at h
        subst h
        have hfind1 : find m1 e.1 = none := by
          refine find_none_of_not_mem hInv1 ?_
          show e.1 ∉ m1.hashmap.map Prod.fst
          rw [hmap]
          exact not_mem_keys_of_find_none hm hfind
        have hlt1 : m1.stored_elements < m1.capacity * kMaxLoadFactor := by
          rcases hextra with hx | hx
          · rw [hstored]; exact hx
          · exact absurd hx hc1
        refine ⟨?_, ?_, ?_, ?_, ?_, ?_, ?_⟩
        · show m1.stored_elements = m.stored_elements
          exact hstored
        · show m1.hashmap.concat e = m.hashmap ++ [e]
          rw [List.concat_eq_append, hmap]
        · show m1.stored_elements + 1 = m.stored_elements + 1
          rw [hstored]
        · show m1.hasher = m.hasher
          exact hhash
        · show m1.capacity = _
          exact hcapEq
        · exact append_Inv hInv1 hfind1 hlt1
        · by_cases hc0 : m.capacity = 0
          · rw [hc0] at hcapEq
            simp only [kScalingFactor] at hcapEq
            exact absurd (by rw [hcapEq]; split <;> simp) hc1
          · omega

/-! ## `erase`: helper lemmas for the chain surgery -/

theorem count_swap {α : Type} [DecidableEq α] {l : List α} {i j : Nat}
    (hi : i < l.length) (hj : j < l.length) (hij : i ≠ j) (a : α) :
    ((l.set i (l[j])).set j (l[i])).count a = l.count a := by
  have h1 := count_set_add l i hi (l[j]) a
  have hjlen : j < (l.set i (l[j])).length := by
    rw [List.length_set]; exact hj
  have h2 := count_set_add (l.set i (l[j])) j hjlen (l[i]) a
  rw [List.getElem_set_ne hij] at h2
  by_cases hia : l[i] = a
  · by_cases hja : l[j] = a
    · simp only [if_pos hia, if_pos hja] at h1 h2
      omega
    · simp only [if_pos hia, if_neg hja] at h1 h2
      omega
  · by_cases hja : l[j] = a
    · simp only [if_neg hia, if_pos hja] at h1 h2
      omega
    · simp only [if_neg hia, if_neg hja] at h1 h2
      omega

theorem mem_swap {α : Type} [DecidableEq α] {l : List α} {i j : Nat}
    (hi : i < l.length) (hj : j < l.length) (hij : i ≠ j) {a : α} :
    a ∈ (l.set i (l[j])).set j (l[i]) ↔ a ∈ l := by
  rw [← List.count_pos_iff, ← List.count_pos_iff, count_swap hi hj hij]

theorem nodup_swap {α : Type} [DecidableEq α] {l : List α} {i j : Nat}
    (hl : l.Nodup) (hi : i < l.length) (hj : j < l.length) (hij : i ≠ j) :
    ((l.set i (l[j])).set j (l[i])).Nodup :=
  nodup_of_count_le_one fun a => by
    rw [count_swap hi hj hij]
    exact count_le_one_of_nodup hl a

theorem set_dropLast {α : Type} (l : List α) (p : Nat) (x : α) :
    (l.set p x).dropLast = l.dropLast.set p x := by
  rw [List.dropLast_eq_take, List.dropLast_eq_take, List.length_set,
    List.set_take]

theorem set_last_dropLast {α : Type} (l : List α) (x : α) :
    (l.set (l.length - 1) x).dropLast = l.dropLast := by
  rw [set_dropLast]
  exact List.set_eq_of_length_le (by rw [List.length_dropLast])

theorem getD_dropLast_lt {α : Type} {l : List α} {q : Nat} {d : α}
    (hq : q < l.length - 1) : l.dropLast.getD q d = l.getD q d := by
  rw [List.getD_eq_getElem _ _ (by rw [List.length_dropLast]; exact hq),
    List.getElem_dropLast, List.getD_eq_getElem _ _ (by omega)]

theorem mem_dropLast_iff_getElem {α : Type} {l : List α} {a : α} :
    a ∈ l.dropLast ↔ ∃ i, ∃ _h : i < l.length - 1, l.getD i a = a := by
  rw [List.mem_iff_getElem]
  constructor
  · rintro ⟨i, hi, hv⟩
    rw [List.length_dropLast] at hi
    refine ⟨i, hi, ?_⟩
    rw [List.getD_eq_getElem _ _ (by omega)]
    rw [List.getElem_dropLast] at hv
    exact hv
  · rintro ⟨i, hi, hv⟩
    refine ⟨i, by rw [List.length_dropLast]; exact hi, ?_⟩
    rw [List.getElem_dropLast]
    rw [List.getD_eq_getElem _ _ (by omega)] at hv
    exact hv

theorem getLast?_of_pos {α : Type} {l : List α} (h : 0 < l.length) :
    l.getLast? = some (l[l.length - 1]) := by
  rw [List.getLast?_eq_getElem?, List.getElem?_eq_getElem (by omega)]

theorem findOffset_spec {hm : List (Nat × Nat)} {stored key p : Nat} :
    ∀ {chain : List Nat}, p ∈ chain →
      p < stored → (hm.getD p (0, 0)).1 = key →
      (∀ q ∈ chain, q < stored → (hm.getD q (0, 0)).1 = key → q = p) →
      ∃ i, ∃ h : i < chain.length,
        findOffset hm stored key chain = some i ∧ chain[i] = p
  | [], hp, _, _, _ => absurd hp (List.not_mem_nil p)
  | q :: rest, hp, hps, hpk, huniq => by
    rw [findOffset]
    by_cases hq : q < stored ∧ (hm.getD q (0, 0)).1 = key
    · have hqp : q = p := huniq q (List.mem_cons_self q rest) hq.1 hq.2
      exact ⟨0, by simp, by rw [if_pos hq], by rw [List.getElem_cons_zero, hqp]⟩
    · have hpq : p ≠ q := by
        intro hEq
        exact hq (hEq ▸ ⟨hps, hpk⟩)
      have hp' : p ∈ rest := by
        rcases List.mem_cons.1 hp with hEq | hmem
        · exact absurd hEq hpq
        · exact hmem
      obtain ⟨i, hlen, heq, hval⟩ := findOffset_spec hp' hps hpk
        (fun r hr => huniq r (List.mem_cons_of_mem q hr))
      refine ⟨i + 1, by rw [List.length_cons]; omega, ?_, ?_⟩
      · rw [if_neg hq, heq]
        rfl
      · rw [List.getElem_cons_succ]
        exact hval

theorem FindInChainList_spec {m : HashMap} {k p : Nat} (hm : Inv m)
    (hfind : find m k = some p) :
    ∃ i, ∃ h : i < (chainAt m (bucketOf m k)).length,
      FindInChainList m k = .ok (bucketOf m k, i) ∧
      (chainAt m (bucketOf m k))[i] = p := by
  obtain ⟨hp, hkp⟩ := find_spec_some hm hfind
  have hc : 0 < m.capacity := cap_pos_of_stored hm (by omega)
  have hmem : p ∈ chainAt m (bucketOf m k) := by
    have := hm.complete p hp
    rwa [hkp] at this
  obtain ⟨i, hlen, heq, hval⟩ := findOffset_spec hmem hp hkp
    (fun q hq hqs hqk => keyAt_inj hm hqs hp (hqk.trans hkp.symm))
  refine ⟨i, hlen, ?_, hval⟩
  rw [FindInChainList, GetBucketIndex_ok (by omega) k]
  show (match findOffset m.hashmap m.stored_elements k
      (m.indices.getD (bucketOf m k) []) with
    | none => Except.error UB.chainMiss
    | some i => Except.ok (bucketOf m k, i)) = Except.ok (bucketOf m k, i)
  rw [show m.indices.getD (bucketOf m k) [] = chainAt m (bucketOf m k) from rfl,
    heq]

/-- Invariant transport across the erase surgery, given an abstract
description of the resulting state: the victim's position `p` is gone, the
formerly last position is gone, and (when the victim was not last) `p` now
carries the old last entry, recorded in the old last key's bucket chain. -/
theorem inv_surgery {m m3 : HashMap} (hm : Inv m) {p : Nat}
    (hp : p < m.stored_elements)
    (hcap3 : m3.capacity = m.capacity)
    (hhash3 : m3.hasher = m.hasher)
    (hstored3 : m3.stored_elements = m.stored_elements - 1)
    (hidx3 : m3.indices.length = m.capacity)
    (hmap3 : m3.hashmap =
      (m.hashmap.set p (m.hashmap.getD (m.stored_elements - 1) (0, 0))).dropLast)
    (hchain3 : ∀ b, b < m.capacity → ∀ q : Nat,
      q ∈ chainAt m3 b ↔
        (q ∈ chainAt m b ∧ q ≠ m.stored_elements - 1 ∧ q ≠ p) ∨
        (q = p ∧ bucketOf m (keyAt m (m.stored_elements - 1)) = b ∧
          p ≠ m.stored_elements - 1))
    (hchain3nd : ∀ b, b < m.capacity → (chainAt m3 b).Nodup) :
    Inv m3 := by
  have hn : 0 < m.stored_elements := by omega
  have hc : 0 < m.capacity := cap_pos_of_stored hm hn
  have hlen : m.hashmap.length = m.stored_elements := hm.stored_eq.symm
  have hbucket3 : ∀ x, bucketOf m3 x = bucketOf m x := by
    intro x
    rw [bucketOf, bucketOf, hcap3, hhash3]
  have hkey3 : ∀ q, q < m.stored_elements - 1 →
      keyAt m3 q = if q = p then keyAt m (m.stored_elements - 1)
        else keyAt m q := by
    intro q hq
    rw [keyAt, hmap3, getD_dropLast_lt (by rw [List.length_set]; omega)]
    by_cases hqp : q = p
    · subst hqp
      rw [if_pos rfl, getD_set_self (by omega)]
      rfl
    · rw [if_neg hqp, getD_set_ne (fun h => hqp h.symm)]
      rfl
  constructor
  · rw [hstored3, hmap3, List.length_dropLast, List.length_set, hlen]
  · rw [hidx3, hcap3]
  · rw [hstored3, hcap3]
    have := hm.load
    omega
  · show (m3.hashmap.map Prod.fst).Nodup
    rw [hmap3, List.map_dropLast, List.map_set, set_dropLast]
    have hnd : ((m.hashmap.map Prod.fst).dropLast).Nodup :=
      List.Nodup.sublist (List.dropLast_sublist _) hm.keys_nodup
    by_cases hpn : p < m.stored_elements - 1
    · refine nodup_set_of_not_mem hnd ?_
      intro hmem
      obtain ⟨q, hq, hv⟩ := mem_dropLast_iff_getElem.1 hmem
      rw [List.length_map] at hq
      have hkq : keyAt m q = keyAt m (m.stored_elements - 1) := by
        rw [List.getD_eq_getElem _ _ (by rw [List.length_map]; omega),
          List.getElem_map] at hv
        rw [keyAt_eq_getElem (by omega : q < m.hashmap.length), hv, keyAt]
      have := keyAt_inj hm (by omega) (by omega) hkq
      omega
    · rw [List.set_eq_of_length_le]
      · exact hnd
      · rw [List.length_dropLast, List.length_map, hlen]
        omega
  · intro b hb q hq
    rw [hcap3] at hb
    rw [hchain3 b hb q] at hq
    rw [hstored3, hbucket3]
    rcases hq with ⟨hmem, hne1, hnep⟩ | ⟨heqp, hbl, hpn⟩
    · obtain ⟨hlt, hbk⟩ := hm.sound b hb q hmem
      refine ⟨by omega, ?_⟩
      rw [hkey3 q (by omega), if_neg hnep]
      exact hbk
    · subst heqp
      refine ⟨by omega, ?_⟩
      rw [hkey3 _ (by omega), if_pos rfl]
      exact hbl
  · intro q hq
    rw [hstored3] at hq
    rw [hbucket3]
    by_cases hqp : q = p
    · subst hqp
      rw [hkey3 q hq, if_pos rfl]
      have hbl : bucketOf m (keyAt m (m.stored_elements - 1)) < m.capacity :=
        bucketOf_lt hc _
      rw [hchain3 _ hbl q]
      exact Or.inr ⟨rfl, rfl, by omega⟩
    · rw [hkey3 q hq, if_neg hqp]
      have hbq : bucketOf m (keyAt m q) < m.capacity := bucketOf_lt hc _
      rw [hchain3 _ hbq q]
      exact Or.inl ⟨hm.complete q (by omega), by omega, hqp⟩
  · intro b hb
    rw [hcap3] at hb
    exact hchain3nd b hb

theorem LastKey_eq {m' : HashMap} (h0 : 0 < m'.hashmap.length) :
    LastKey m' = .ok (keyAt m' (m'.hashmap.length - 1)) := by
  rw [LastKey, getLast?_of_pos h0]
  refine congrArg Except.ok ?_
  rw [keyAt_eq_getElem (by omega : m'.hashmap.length - 1 < m'.hashmap.length)]

theorem swapData_eq {m : HashMap} {a b : Nat} (ha : a < m.hashmap.length)
    (hb : b < m.hashmap.length) :
    swapData m a b =
      { m with hashmap := (m.hashmap.set a (m.hashmap.getD b (0, 0))).set b (m.hashmap.getD a (0, 0)) } := by
  rw [swapData]
  simp only [List.getElem?_eq_getElem ha, List.getElem?_eq_getElem hb]
  rw [List.getD_eq_getElem _ _ hb, List.getD_eq_getElem _ _ ha]

/-- The surgery performed by `erase` on a present key: result of
`EraseLastElement(SwapWithLastIfNecessary(key))`, described abstractly. -/
theorem erase_surgery {m : HashMap} {k p : Nat} (hm : Inv m)
    (hfind : find m k = some p) :
    ∃ m2 it, SwapWithLastIfNecessary m k = .ok (m2, it) ∧
    ∃ m4, EraseLastElement m2 it = .ok m4 ∧
      m4.stored_elements = m.stored_elements ∧
      m4.hasher = m.hasher ∧
      m4.capacity = m.capacity ∧
      m4.hashmap = (m.hashmap.set p
        (m.hashmap.getD (m.stored_elements - 1) (0, 0))).dropLast ∧
      m4.indices.length = m.capacity ∧
      (∀ b, b < m.capacity → ∀ q : Nat,
        q ∈ chainAt m4 b ↔
          (q ∈ chainAt m b ∧ q ≠ m.stored_elements - 1 ∧ q ≠ p) ∨
          (q = p ∧ bucketOf m (keyAt m (m.stored_elements - 1)) = b ∧
            p ≠ m.stored_elements - 1)) ∧
      (∀ b, b < m.capacity → (chainAt m4 b).Nodup) := by
  obtain ⟨hp, hkp⟩ := find_spec_some hm hfind
  have hn : 0 < m.stored_elements := by omega
  have hc : 0 < m.capacity := cap_pos_of_stored hm hn
  have hc' : m.capacity ≠ 0 := by omega
  have hlen : m.hashmap.length = m.stored_elements := hm.stored_eq.symm
  obtain ⟨i, hilen, hFK, hKi⟩ := FindInChainList_spec hm hfind
  have hbkidx : bucketOf m k < m.indices.length := by
    rw [hm.idx_len]; exact bucketOf_lt hc k
  have hLK : LastKey m = .ok (keyAt m (m.stored_elements - 1)) := by
    rw [LastKey_eq (by omega), hlen]
  by_cases hlast : keyAt m (m.stored_elements - 1) = k
  · -- the victim is the last entry in storage: no swap happens
    have hpn : p = m.stored_elements - 1 := by
      have := keyAt_inj hm hp (by omega) (hkp.trans hlast.symm)
      omega
    have hswap : SwapWithLastIfNecessary m k = .ok (m, (bucketOf m k, i)) := by
      simp only [SwapWithLastIfNecessary, hFK, hLK]
      rw [if_pos hlast]
    have herase : EraseLastElement m (bucketOf m k, i) = .ok
        { m with
            indices := m.indices.set (bucketOf m k)
              ((m.indices.getD (bucketOf m k) []).eraseIdx i),
            hashmap := m.hashmap.dropLast } := by
      simp only [EraseLastElement, hLK, hlast, GetBucketIndex_ok hc' k]
    refine ⟨m, (bucketOf m k, i), hswap, _, herase, rfl, rfl, rfl, ?_, ?_, ?_, ?_⟩
    · show m.hashmap.dropLast = _
      rw [hpn, ← hlen, set_last_dropLast]
    · show (m.indices.set (bucketOf m k) _).length = m.capacity
      rw [List.length_set]
      exact hm.idx_len
    · intro b hb q
      show q ∈ (m.indices.set (bucketOf m k)
          ((chainAt m (bucketOf m k)).eraseIdx i)).getD b [] ↔ _
      by_cases hbe : bucketOf m k = b
      · subst hbe
        rw [getD_set_self hbkidx]
        rw [mem_eraseIdx_nodup (hm.chains_nodup _ (bucketOf_lt hc k)) hilen]
        constructor
        · rintro ⟨hmem, hne⟩
          rw [hKi] at hne
          exact Or.inl ⟨hmem, by omega, hne⟩
        · rintro (⟨hmem, hne1, hnep⟩ | ⟨-, -, hcon⟩)
          · rw [hKi]
            exact ⟨hmem, hnep⟩
          · exact absurd hpn hcon
      · rw [getD_set_ne hbe]
        constructor
        · intro hmem
          obtain ⟨hlt, hbq⟩ := hm.sound b hb q hmem
          refine Or.inl ⟨hmem, ?_, ?_⟩
          · intro hq1
            subst hq1
            rw [hlast] at hbq
            exact hbe hbq
          · intro hqp
            subst hqp
            rw [hkp] at hbq
            exact hbe hbq
        · rintro (⟨hmem, -, -⟩ | ⟨-, -, hcon⟩)
          · exact hmem
          · exact absurd hpn hcon
    · intro b hb
      show ((m.indices.set (bucketOf m k)
          ((chainAt m (bucketOf m k)).eraseIdx i)).getD b []).Nodup
      by_cases hbe : bucketOf m k = b
      · subst hbe
        rw [getD_set_self hbkidx]
        exact List.Nodup.sublist (List.eraseIdx_sublist _ i)
          (hm.chains_nodup _ (bucketOf_lt hc k))
      · rw [getD_set_ne hbe]
        exact hm.chains_nodup b hb
  · -- the victim is not last: chain records and storage slots are swapped
    have hpn : p ≠ m.stored_elements - 1 := by
      intro hEq
      rw [hEq] at hkp
      exact hlast hkp
    have hfindL : find m (keyAt m (m.stored_elements - 1))
        = some (m.stored_elements - 1) := find_complete hm (by omega) rfl
    obtain ⟨j, hjlen, hFL, hLj⟩ := FindInChainList_spec hm hfindL
    have hblidx : bucketOf m (keyAt m (m.stored_elements - 1))
        < m.indices.length := by
      rw [hm.idx_len]; exact bucketOf_lt hc _
    have hplen : p < m.hashmap.length := by omega
    have hn1len : m.stored_elements - 1 < m.hashmap.length := by omega
    have hgi : chainGet m (bucketOf m k, i) = p := by
      show (m.indices.getD (bucketOf m k) []).getD i 0 = p
      rw [show m.indices.getD (bucketOf m k) []
          = chainAt m (bucketOf m k) from rfl,
        List.getD_eq_getElem _ _ hilen, hKi]
    have hgj : chainGet m (bucketOf m (keyAt m (m.stored_elements - 1)), j)
        = m.stored_elements - 1 := by
      show (m.indices.getD (bucketOf m (keyAt m (m.stored_elements - 1))) []).getD j 0 = _
      rw [show m.indices.getD (bucketOf m (keyAt m (m.stored_elements - 1))) []
          = chainAt m (bucketOf m (keyAt m (m.stored_elements - 1))) from rfl,
        List.getD_eq_getElem _ _ hjlen, hLj]
    have hH2len : ((m.hashmap.set (m.stored_elements - 1) (m.hashmap.getD p (0, 0))).set p (m.hashmap.getD (m.stored_elements - 1) (0, 0))).length = m.hashmap.length := by
      rw [List.length_set, List.length_set]
    have hback : ((m.hashmap.set (m.stored_elements - 1) (m.hashmap.getD p (0, 0))).set p (m.hashmap.getD (m.stored_elements - 1) (0, 0))).getD (m.hashmap.length - 1) (0, 0) = m.hashmap.getD p (0, 0) := by
      rw [List.getD_eq_getElem _ _ (by rw [hH2len]; omega),
        List.getElem_set_ne (by omega : p ≠ m.hashmap.length - 1),
        ← List.getD_eq_getElem
          (m.hashmap.set (m.stored_elements - 1) (m.hashmap.getD p (0, 0)))
          (0, 0) (by rw [List.length_set]; omega),
        hlen, getD_set_self hn1len]
    by_cases hbl : bucketOf m (keyAt m (m.stored_elements - 1)) = bucketOf m k
    · -- the last entry's chain record lives in the same bucket as the victim's
      have hjlen0 := hjlen
      have hLj0 := hLj
      rw [hbl] at hFL hjlen hblidx hgj
      have hLj' : (chainAt m (bucketOf m k))[j] = m.stored_elements - 1 := by
        rw [← List.getD_eq_getElem (chainAt m (bucketOf m k)) 0 hjlen, ← hbl,
          List.getD_eq_getElem _ _ hjlen0, hLj0]
      have hij : i ≠ j := by
        intro hEq
        have h1 : (chainAt m (bucketOf m k)).getD i 0 = p := by
          rw [List.getD_eq_getElem _ _ hilen, hKi]
        rw [hEq] at h1
        have h2 : (chainAt m (bucketOf m k)).getD j 0 = m.stored_elements - 1 := by
          rw [List.getD_eq_getElem _ _ hjlen, hLj']
        exact hpn (h1.symm.trans h2)
      have hswap0 : SwapWithLastIfNecessary m k = .ok
          (swapData (chainSet (chainSet m (bucketOf m k, i) (m.stored_elements - 1)) (bucketOf m k, j) p) (chainGet (chainSet (chainSet m (bucketOf m k, i) (m.stored_elements - 1)) (bucketOf m k, j) p) (bucketOf m k, i)) (chainGet (chainSet (chainSet m (bucketOf m k, i) (m.stored_elements - 1)) (bucketOf m k, j) p) (bucketOf m k, j)), (bucketOf m k, i)) := by
        simp only [SwapWithLastIfNecessary, hFK, hLK, hFL]
        rw [if_neg hlast, hgi, hgj]
      have hM1 : chainSet (chainSet m (bucketOf m k, i) (m.stored_elements - 1)) (bucketOf m k, j) p
          = { m with indices := m.indices.set (bucketOf m k) (((chainAt m (bucketOf m k)).set i (m.stored_elements - 1)).set j p) } := by
        simp only [chainSet]
        rw [getD_set_self hbkidx, List.set_set]
        rfl
      rw [hM1] at hswap0
      have hv1 : chainGet { m with indices := m.indices.set (bucketOf m k) (((chainAt m (bucketOf m k)).set i (m.stored_elements - 1)).set j p) } (bucketOf m k, i) = m.stored_elements - 1 := by
        show ((m.indices.set (bucketOf m k) (((chainAt m (bucketOf m k)).set i (m.stored_elements - 1)).set j p)).getD (bucketOf m k) []).getD i 0 = _
        rw [getD_set_self hbkidx,
          List.getD_eq_getElem _ _
            (by rw [List.length_set, List.length_set]; exact hilen),
          List.getElem_set_ne (fun h => hij h.symm), List.getElem_set_self]
      have hv2 : chainGet { m with indices := m.indices.set (bucketOf m k) (((chainAt m (bucketOf m k)).set i (m.stored_elements - 1)).set j p) } (bucketOf m k, j) = p := by
        show ((m.indices.set (bucketOf m k) (((chainAt m (bucketOf m k)).set i (m.stored_elements - 1)).set j p)).getD (bucketOf m k) []).getD j 0 = _
        rw [getD_set_self hbkidx,
          List.getD_eq_getElem _ _
            (by rw [List.length_set, List.length_set]; exact hjlen),
          List.getElem_set_self]
      rw [hv1, hv2] at hswap0
      have hsd : swapData { m with indices := m.indices.set (bucketOf m k) (((chainAt m (bucketOf m k)).set i (m.stored_elements - 1)).set j p) } (m.stored_elements - 1) p
          = { m with indices := m.indices.set (bucketOf m k) (((chainAt m (bucketOf m k)).set i (m.stored_elements - 1)).set j p), hashmap := (m.hashmap.set (m.stored_elements - 1) (m.hashmap.getD p (0, 0))).set p (m.hashmap.getD (m.stored_elements - 1) (0, 0)) } :=
        swapData_eq hn1len hplen
      rw [hsd] at hswap0
      have hLK2 : LastKey { m with indices := m.indices.set (bucketOf m k) (((chainAt m (bucketOf m k)).set i (m.stored_elements - 1)).set j p), hashmap := (m.hashmap.set (m.stored_elements - 1) (m.hashmap.getD p (0, 0))).set p (m.hashmap.getD (m.stored_elements - 1) (0, 0)) } = .ok k := by
        rw [LastKey_eq (by rw [show ({ m with indices := m.indices.set (bucketOf m k) (((chainAt m (bucketOf m k)).set i (m.stored_elements - 1)).set j p), hashmap := (m.hashmap.set (m.stored_elements - 1) (m.hashmap.getD p (0, 0))).set p (m.hashmap.getD (m.stored_elements - 1) (0, 0)) } : HashMap).hashmap.length = m.hashmap.length from hH2len]; omega)]
        refine congrArg Except.ok ?_
        show (((m.hashmap.set (m.stored_elements - 1) (m.hashmap.getD p (0, 0))).set p (m.hashmap.getD (m.stored_elements - 1) (0, 0))).getD (((m.hashmap.set (m.stored_elements - 1) (m.hashmap.getD p (0, 0))).set p (m.hashmap.getD (m.stored_elements - 1) (0, 0))).length - 1) (0, 0)).1 = k
        rw [hH2len, hback]
        exact hkp
      have hGB2 : GetBucketIndex { m with indices := m.indices.set (bucketOf m k) (((chainAt m (bucketOf m k)).set i (m.stored_elements - 1)).set j p), hashmap := (m.hashmap.set (m.stored_elements - 1) (m.hashmap.getD p (0, 0))).set p (m.hashmap.getD (m.stored_elements - 1) (0, 0)) } k = .ok (bucketOf m k) := by
        rw [GetBucketIndex, if_neg hc']
        rfl
      have herase : EraseLastElement { m with indices := m.indices.set (bucketOf m k) (((chainAt m (bucketOf m k)).set i (m.stored_elements - 1)).set j p), hashmap := (m.hashmap.set (m.stored_elements - 1) (m.hashmap.getD p (0, 0))).set p (m.hashmap.getD (m.stored_elements - 1) (0, 0)) } (bucketOf m k, i) = .ok
          { m with indices := m.indices.set (bucketOf m k) ((((chainAt m (bucketOf m k)).set i (m.stored_elements - 1)).set j p).eraseIdx i), hashmap := ((m.hashmap.set (m.stored_elements - 1) (m.hashmap.getD p (0, 0))).set p (m.hashmap.getD (m.stored_elements - 1) (0, 0))).dropLast } := by
        simp only [EraseLastElement, hLK2, hGB2]
        rw [getD_set_self hbkidx, List.set_set]
      refine ⟨_, (bucketOf m k, i), hswap0, _, herase, rfl, rfl, rfl, ?_, ?_, ?_, ?_⟩
      · show ((m.hashmap.set (m.stored_elements - 1) (m.hashmap.getD p (0, 0))).set p (m.hashmap.getD (m.stored_elements - 1) (0, 0))).dropLast = _
        rw [List.set_comm _ _ _ (show m.stored_elements - 1 ≠ p from fun h => hpn h.symm)]
        have hsl := set_last_dropLast (m.hashmap.set p (m.hashmap.getD (m.stored_elements - 1) (0, 0))) (m.hashmap.getD p (0, 0))
        rw [List.length_set, hlen] at hsl
        exact hsl
      · show (m.indices.set (bucketOf m k) _).length = m.capacity
        rw [List.length_set]
        exact hm.idx_len
      · intro b hb q
        show q ∈ (m.indices.set (bucketOf m k) ((((chainAt m (bucketOf m k)).set i (m.stored_elements - 1)).set j p).eraseIdx i)).getD b [] ↔ _
        by_cases hbe : bucketOf m k = b
        · subst hbe
          rw [getD_set_self hbkidx]
          rw [show ((chainAt m (bucketOf m k)).set i (m.stored_elements - 1)).set j p = ((chainAt m (bucketOf m k)).set i ((chainAt m (bucketOf m k))[j])).set j ((chainAt m (bucketOf m k))[i]) by rw [hKi, hLj']]
          rw [mem_eraseIdx_nodup
            (nodup_swap (hm.chains_nodup _ (bucketOf_lt hc k)) hilen hjlen hij)
            (by rw [List.length_set, List.length_set]; exact hilen)]
          rw [mem_swap hilen hjlen hij]
          have hilen2 : i < (((chainAt m (bucketOf m k)).set i ((chainAt m (bucketOf m k))[j])).set j ((chainAt m (bucketOf m k))[i])).length := by
            rw [List.length_set, List.length_set]
            exact hilen
          have hswapi : (((chainAt m (bucketOf m k)).set i ((chainAt m (bucketOf m k))[j])).set j ((chainAt m (bucketOf m k))[i]))[i] = m.stored_elements - 1 := by
            rw [List.getElem_set_ne (fun h => hij h.symm), List.getElem_set_self, hLj']
          rw [hswapi]
          constructor
          · rintro ⟨hmem, hne⟩
            by_cases hqp : q = p
            · exact Or.inr ⟨hqp, hbl, hpn⟩
            · exact Or.inl ⟨hmem, hne, hqp⟩
          · rintro (⟨hmem, hne, -⟩ | ⟨hqp, -, -⟩)
            · exact ⟨hmem, hne⟩
            · subst hqp
              exact ⟨hKi ▸ List.getElem_mem hilen, hpn⟩
        · rw [getD_set_ne hbe]
          constructor
          · intro hmem
            obtain ⟨hlt, hbq⟩ := hm.sound b hb q hmem
            refine Or.inl ⟨hmem, ?_, ?_⟩
            · intro hq1
              subst hq1
              rw [hbl] at hbq
              exact hbe hbq
            · intro hqp
              subst hqp
              rw [hkp] at hbq
              exact hbe hbq
          · rintro (⟨hmem, -, -⟩ | ⟨-, hbleq, -⟩)
            · exact hmem
            · exact absurd (hbl.symm.trans hbleq) hbe
      · intro b hb
        show ((m.indices.set (bucketOf m k) ((((chainAt m (bucketOf m k)).set i (m.stored_elements - 1)).set j p).eraseIdx i)).getD b []).Nodup
        by_cases hbe : bucketOf m k = b
        · subst hbe
          rw [getD_set_self hbkidx]
          rw [show ((chainAt m (bucketOf m k)).set i (m.stored_elements - 1)).set j p = ((chainAt m (bucketOf m k)).set i ((chainAt m (bucketOf m k))[j])).set j ((chainAt m (bucketOf m k))[i]) by rw [hKi, hLj']]
          exact List.Nodup.sublist (List.eraseIdx_sublist _ i)
            (nodup_swap (hm.chains_nodup _ (bucketOf_lt hc k)) hilen hjlen hij)
        · rw [getD_set_ne hbe]
          exact hm.chains_nodup b hb
    · -- the last entry's chain record lives in a different bucket
      have hblbk : bucketOf m (keyAt m (m.stored_elements - 1)) ≠ bucketOf m k := hbl
      have hswap0 : SwapWithLastIfNecessary m k = .ok
          (swapData (chainSet (chainSet m (bucketOf m k, i) (m.stored_elements - 1)) (bucketOf m (keyAt m (m.stored_elements - 1)), j) p) (chainGet (chainSet (chainSet m (bucketOf m k, i) (m.stored_elements - 1)) (bucketOf m (keyAt m (m.stored_elements - 1)), j) p) (bucketOf m k, i)) (chainGet (chainSet (chainSet m (bucketOf m k, i) (m.stored_elements - 1)) (bucketOf m (keyAt m (m.stored_elements - 1)), j) p) (bucketOf m (keyAt m (m.stored_elements - 1)), j)), (bucketOf m k, i)) := by
        simp only [SwapWithLastIfNecessary, hFK, hLK, hFL]
        rw [if_neg hlast, hgi, hgj]
      have hM1 : chainSet (chainSet m (bucketOf m k, i) (m.stored_elements - 1)) (bucketOf m (keyAt m (m.stored_elements - 1)), j) p
          = { m with indices := (m.indices.set (bucketOf m k) ((chainAt m (bucketOf m k)).set i (m.stored_elements - 1))).set (bucketOf m (keyAt m (m.stored_elements - 1))) ((chainAt m (bucketOf m (keyAt m (m.stored_elements - 1)))).set j p) } := by
        simp only [chainSet]
        rw [getD_set_ne (fun h => hblbk h.symm)]
        rfl
      rw [hM1] at hswap0
      have hv1 : chainGet { m with indices := (m.indices.set (bucketOf m k) ((chainAt m (bucketOf m k)).set i (m.stored_elements - 1))).set (bucketOf m (keyAt m (m.stored_elements - 1))) ((chainAt m (bucketOf m (keyAt m (m.stored_elements - 1)))).set j p) } (bucketOf m k, i) = m.stored_elements - 1 := by
        show (((m.indices.set (bucketOf m k) ((chainAt m (bucketOf m k)).set i (m.stored_elements - 1))).set (bucketOf m (keyAt m (m.stored_elements - 1))) ((chainAt m (bucketOf m (keyAt m (m.stored_elements - 1)))).set j p)).getD (bucketOf m k) []).getD i 0 = _
        rw [getD_set_ne hblbk, getD_set_self hbkidx,
          List.getD_eq_getElem _ _ (by rw [List.length_set]; exact hilen),
          List.getElem_set_self]
      have hv2 : chainGet { m with indices := (m.indices.set (bucketOf m k) ((chainAt m (bucketOf m k)).set i (m.stored_elements - 1))).set (bucketOf m (keyAt m (m.stored_elements - 1))) ((chainAt m (bucketOf m (keyAt m (m.stored_elements - 1)))).set j p) } (bucketOf m (keyAt m (m.stored_elements - 1)), j) = p := by
        show (((m.indices.set (bucketOf m k) ((chainAt m (bucketOf m k)).set i (m.stored_elements - 1))).set (bucketOf m (keyAt m (m.stored_elements - 1))) ((chainAt m (bucketOf m (keyAt m (m.stored_elements - 1)))).set j p)).getD (bucketOf m (keyAt m (m.stored_elements - 1))) []).getD j 0 = _
        rw [getD_set_self (by rw [List.length_set]; exact hblidx),
          List.getD_eq_getElem _ _ (by rw [List.length_set]; exact hjlen),
          List.getElem_set_self]
      rw [hv1, hv2] at hswap0
      have hsd : swapData { m with indices := (m.indices.set (bucketOf m k) ((chainAt m (bucketOf m k)).set i (m.stored_elements - 1))).set (bucketOf m (keyAt m (m.stored_elements - 1))) ((chainAt m (bucketOf m (keyAt m (m.stored_elements - 1)))).set j p) } (m.stored_elements - 1) p
          = { m with indices := (m.indices.set (bucketOf m k) ((chainAt m (bucketOf m k)).set i (m.stored_elements - 1))).set (bucketOf m (keyAt m (m.stored_elements - 1))) ((chainAt m (bucketOf m (keyAt m (m.stored_elements - 1)))).set j p), hashmap := (m.hashmap.set (m.stored_elements - 1) (m.hashmap.getD p (0, 0))).set p (m.hashmap.getD (m.stored_elements - 1) (0, 0)) } :=
        swapData_eq hn1len hplen
      rw [hsd] at hswap0
      have hLK2 : LastKey { m with indices := (m.indices.set (bucketOf m k) ((chainAt m (bucketOf m k)).set i (m.stored_elements - 1))).set (bucketOf m (keyAt m (m.stored_elements - 1))) ((chainAt m (bucketOf m (keyAt m (m.stored_elements - 1)))).set j p), hashmap := (m.hashmap.set (m.stored_elements - 1) (m.hashmap.getD p (0, 0))).set p (m.hashmap.getD (m.stored_elements - 1) (0, 0)) } = .ok k := by
        rw [LastKey_eq (by rw [show ({ m with indices := (m.indices.set (bucketOf m k) ((chainAt m (bucketOf m k)).set i (m.stored_elements - 1))).set (bucketOf m (keyAt m (m.stored_elements - 1))) ((chainAt m (bucketOf m (keyAt m (m.stored_elements - 1)))).set j p), hashmap := (m.hashmap.set (m.stored_elements - 1) (m.hashmap.getD p (0, 0))).set p (m.hashmap.getD (m.stored_elements - 1) (0, 0)) } : HashMap).hashmap.length = m.hashmap.length from hH2len]; omega)]
        refine congrArg Except.ok ?_
        show (((m.hashmap.set (m.stored_elements - 1) (m.hashmap.getD p (0, 0))).set p (m.hashmap.getD (m.stored_elements - 1) (0, 0))).getD (((m.hashmap.set (m.stored_elements - 1) (m.hashmap.getD p (0, 0))).set p (m.hashmap.getD (m.stored_elements - 1) (0, 0))).length - 1) (0, 0)).1 = k
        rw [hH2len, hback]
        exact hkp
      have hGB2 : GetBucketIndex { m with indices := (m.indices.set (bucketOf m k) ((chainAt m (bucketOf m k)).set i (m.stored_elements - 1))).set (bucketOf m (keyAt m (m.stored_elements - 1))) ((chainAt m (bucketOf m (keyAt m (m.stored_elements - 1)))).set j p), hashmap := (m.hashmap.set (m.stored_elements - 1) (m.hashmap.getD p (0, 0))).set p (m.hashmap.getD (m.stored_elements - 1) (0, 0)) } k = .ok (bucketOf m k) := by
        rw [GetBucketIndex, if_neg hc']
        rfl
      have herase : EraseLastElement { m with indices := (m.indices.set (bucketOf m k) ((chainAt m (bucketOf m k)).set i (m.stored_elements - 1))).set (bucketOf m (keyAt m (m.stored_elements - 1))) ((chainAt m (bucketOf m (keyAt m (m.stored_elements - 1)))).set j p), hashmap := (m.hashmap.set (m.stored_elements - 1) (m.hashmap.getD p (0, 0))).set p (m.hashmap.getD (m.stored_elements - 1) (0, 0)) } (bucketOf m k, i) = .ok
          { m with indices := (m.indices.set (bucketOf m (keyAt m (m.stored_elements - 1))) ((chainAt m (bucketOf m (keyAt m (m.stored_elements - 1)))).set j p)).set (bucketOf m k) ((chainAt m (bucketOf m k)).eraseIdx i), hashmap := ((m.hashmap.set (m.stored_elements - 1) (m.hashmap.getD p (0, 0))).set p (m.hashmap.getD (m.stored_elements - 1) (0, 0))).dropLast } := by
        simp only [EraseLastElement, hLK2, hGB2]
        rw [getD_set_ne hblbk, getD_set_self hbkidx, set_eraseIdx_self,
          List.set_comm _ _ _ (fun h => hblbk h.symm), List.set_set]
      refine ⟨_, (bucketOf m k, i), hswap0, _, herase, rfl, rfl, rfl, ?_, ?_, ?_, ?_⟩
      · show ((m.hashmap.set (m.stored_elements - 1) (m.hashmap.getD p (0, 0))).set p (m.hashmap.getD (m.stored_elements - 1) (0, 0))).dropLast = _
        rw [List.set_comm _ _ _ (show m.stored_elements - 1 ≠ p from fun h => hpn h.symm)]
        have hsl := set_last_dropLast (m.hashmap.set p (m.hashmap.getD (m.stored_elements - 1) (0, 0))) (m.hashmap.getD p (0, 0))
        rw [List.length_set, hlen] at hsl
        exact hsl
      · show ((m.indices.set (bucketOf m (keyAt m (m.stored_elements - 1))) _).set (bucketOf m k) _).length = m.capacity
        rw [List.length_set, List.length_set]
        exact hm.idx_len
      · intro b hb q
        show q ∈ ((m.indices.set (bucketOf m (keyAt m (m.stored_elements - 1))) ((chainAt m (bucketOf m (keyAt m (m.stored_elements - 1)))).set j p)).set (bucketOf m k) ((chainAt m (bucketOf m k)).eraseIdx i)).getD b [] ↔ _
        by_cases hbe : bucketOf m k = b
        · subst hbe
          rw [getD_set_self (by rw [List.length_set]; exact hbkidx)]
          rw [mem_eraseIdx_nodup
            (hm.chains_nodup _ (bucketOf_lt hc k)) hilen, hKi]
          constructor
          · rintro ⟨hmem, hnep⟩
            refine Or.inl ⟨hmem, ?_, hnep⟩
            intro hq1
            obtain ⟨-, hbq⟩ := hm.sound _ (bucketOf_lt hc k) q hmem
            rw [hq1] at hbq
            exact hblbk hbq
          · rintro (⟨hmem, -, hnep⟩ | ⟨-, hBL, -⟩)
            · exact ⟨hmem, hnep⟩
            · exact absurd hBL hblbk
        · rw [getD_set_ne hbe]
          by_cases hbe2 : bucketOf m (keyAt m (m.stored_elements - 1)) = b
          · subst hbe2
            rw [getD_set_self hblidx]
            rw [mem_set_nodup
              (hm.chains_nodup _ (bucketOf_lt hc _)) hjlen]
            rw [hLj]
            constructor
            · rintro (hqp | ⟨hmem, hne⟩)
              · exact Or.inr ⟨hqp, rfl, hpn⟩
              · refine Or.inl ⟨hmem, hne, ?_⟩
                intro hqp
                obtain ⟨-, hbq⟩ := hm.sound _ (bucketOf_lt hc _) q hmem
                rw [hqp, hkp] at hbq
                exact hbe hbq
            · rintro (⟨hmem, hne1, -⟩ | ⟨hqp, -, -⟩)
              · exact Or.inr ⟨hmem, hne1⟩
              · exact Or.inl hqp
          · rw [getD_set_ne hbe2]
            constructor
            · intro hmem
              obtain ⟨hlt, hbq⟩ := hm.sound b hb q hmem
              refine Or.inl ⟨hmem, ?_, ?_⟩
              · intro hq1
                rw [hq1] at hbq
                exact hbe2 hbq
              · intro hqp
                rw [hqp, hkp] at hbq
                exact hbe hbq
            · rintro (⟨hmem, -, -⟩ | ⟨-, hBL, -⟩)
              · exact hmem
              · exact absurd hBL hbe2
      · intro b hb
        show (((m.indices.set (bucketOf m (keyAt m (m.stored_elements - 1))) ((chainAt m (bucketOf m (keyAt m (m.stored_elements - 1)))).set j p)).set (bucketOf m k) ((chainAt m (bucketOf m k)).eraseIdx i)).getD b []).Nodup
        by_cases hbe : bucketOf m k = b
        · subst hbe
          rw [getD_set_self (by rw [List.length_set]; exact hbkidx)]
          exact List.Nodup.sublist (List.eraseIdx_sublist _ i)
            (hm.chains_nodup _ (bucketOf_lt hc k))
        · rw [getD_set_ne hbe]
          by_cases hbe2 : bucketOf m (keyAt m (m.stored_elements - 1)) = b
          · subst hbe2
            rw [getD_set_self hblidx]
            refine nodup_set_of_not_mem
              (hm.chains_nodup _ (bucketOf_lt hc _)) ?_
            intro hmem
            obtain ⟨-, hbq⟩ := hm.sound _ (bucketOf_lt hc _) p hmem
            rw [hkp] at hbq
            exact hbe hbq
          · rw [getD_set_ne hbe2]
            exact hm.chains_nodup b hb

/-! ## `erase`: full conditional specification -/

theorem erase_absent {fuel : Nat} {m : HashMap} {k : Nat}
    (h : find m k = none) : eraseF fuel m k = .ok m := by
  rw [eraseF, h]

theorem erase_spec {fuel : Nat} {m m' : HashMap} {k p : Nat}
    (hm : Inv m) (hfind : find m k = some p) (h : eraseF fuel m k = .ok m') :
    m'.stored_elements = m.stored_elements - 1 ∧
    m'.hashmap = (m.hashmap.set p
      (m.hashmap.getD (m.stored_elements - 1) (0, 0))).dropLast ∧
    m'.hasher = m.hasher ∧
    m'.capacity = (if (m.stored_elements - 1) * kMinLoadFactor ≤ m.capacity
      then m.capacity / kScalingFactor else m.capacity) ∧
    Inv m' := by
  obtain ⟨m2, it, hswap, m4, herase, hst, hha, hcap, hmap, hidx, hchain, hnd⟩ :=
    erase_surgery hm hfind
  rw [eraseF, hfind] at h
  simp only [hswap, herase] at h
  have hInv3 : Inv { m4 with stored_elements := m4.stored_elements - 1 } := by
    refine inv_surgery hm (find_spec_some hm hfind).1 ?_ ?_ ?_ ?_ ?_ ?_ ?_
    · exact hcap
    · exact hha
    · show m4.stored_elements - 1 = m.stored_elements - 1
      rw [hst]
    · exact hidx
    · exact hmap
    · exact hchain
    · exact hnd
  obtain ⟨hd1, hd2, hd3, hd4, hd5⟩ := downscale_spec hInv3 h
  refine ⟨?_, ?_, ?_, ?_, hd5⟩
  · rw [hd2]
    show m4.stored_elements - 1 = m.stored_elements - 1
    rw [hst]
  · rw [hd1]
    exact hmap
  · rw [hd3]
    exact hha
  · rw [hd4]
    have e1 : ({ m4 with stored_elements := m4.stored_elements - 1 } :
        HashMap).stored_elements = m.stored_elements - 1 := by
      show m4.stored_elements - 1 = m.stored_elements - 1
      rw [hst]
    have e2 : ({ m4 with stored_elements := m4.stored_elements - 1 } :
        HashMap).capacity = m.capacity := hcap
    rw [e1, e2]

theorem getD_erased {m m' : HashMap} (hm : Inv m) {p : Nat}
    (hmap : m'.hashmap = (m.hashmap.set p
      (m.hashmap.getD (m.stored_elements - 1) (0, 0))).dropLast)
    (hp : p < m.stored_elements) :
    ∀ q, q < m.stored_elements - 1 →
      m'.hashmap.getD q (0, 0) =
        if q = p then m.hashmap.getD (m.stored_elements - 1) (0, 0)
        else m.hashmap.getD q (0, 0) := by
  have hlen : m.hashmap.length = m.stored_elements := hm.stored_eq.symm
  intro q hq
  rw [hmap, getD_dropLast_lt (by rw [List.length_set]; omega)]
  by_cases hqp : q = p
  · subst hqp
    rw [if_pos rfl, getD_set_self (by omega)]
  · rw [if_neg hqp, getD_set_ne (fun h => hqp h.symm)]

theorem erase_findValue {fuel : Nat} {m m' : HashMap} {k p : Nat}
    (hm : Inv m) (hfind : find m k = some p) (h : eraseF fuel m k = .ok m') :
    findValue m' k = none ∧
    ∀ k', k' ≠ k → findValue m' k' = findValue m k' := by
  obtain ⟨hp, hkp⟩ := find_spec_some hm hfind
  obtain ⟨hst, hmap, hha, hcap, hm'⟩ := erase_spec hm hfind h
  have hlen : m.hashmap.length = m.stored_elements := hm.stored_eq.symm
  have hlen' : m'.hashmap.length = m.stored_elements - 1 := by
    rw [← hm'.stored_eq, hst]
  have hgetD := getD_erased hm hmap hp
  have hkey' : ∀ q, q < m.stored_elements - 1 →
      keyAt m' q = if q = p then keyAt m (m.stored_elements - 1)
        else keyAt m q := by
    intro q hq
    rw [keyAt, hgetD q hq]
    by_cases hqp : q = p
    · rw [if_pos hqp, if_pos hqp]
      rfl
    · rw [if_neg hqp, if_neg hqp]
      rfl
  constructor
  · rw [findValue, Option.map_eq_none']
    rw [find_none_iff hm', hst]
    intro q hq
    rw [hkey' q hq]
    by_cases hqp : q = p
    · rw [if_pos hqp]
      intro hEq
      have : m.stored_elements - 1 = p :=
        keyAt_inj hm (by omega) hp (hEq.trans hkp.symm)
      omega
    · rw [if_neg hqp]
      intro hEq
      exact hqp (keyAt_inj hm (by omega) hp (hEq.trans hkp.symm))
  · intro k' hk'
    cases hfv : findValue m k' with
    | some v =>
      rw [findValue_some_iff hm] at hfv
      obtain ⟨q, hq, hv⟩ := List.mem_iff_getElem.1 hfv
      have hqD : m.hashmap.getD q (0, 0) = (k', v) := by
        rw [List.getD_eq_getElem _ _ hq, hv]
      have hqp : q ≠ p := by
        intro hEq
        apply hk'
        rw [← hkp, ← hEq]
        rw [keyAt, hqD]
      rw [findValue_some_iff hm']
      by_cases hql : q = m.stored_elements - 1
      · -- the moved entry: now found at position p
        have hpl : p < m.stored_elements - 1 := by
          rw [hql] at hqp
          omega
        have hpl' : p < m'.hashmap.length := by rw [hlen']; omega
        have hvD : m'.hashmap.getD p (0, 0) = (k', v) := by
          rw [hgetD p hpl, if_pos rfl, ← hql]
          exact hqD
        rw [List.getD_eq_getElem _ _ hpl'] at hvD
        exact hvD ▸ List.getElem_mem hpl'
      · have hq' : q < m.stored_elements - 1 := by
          rw [hlen] at hq
          omega
        have hq'' : q < m'.hashmap.length := by rw [hlen']; omega
        have hvD : m'.hashmap.getD q (0, 0) = (k', v) := by
          rw [hgetD q hq', if_neg hqp]
          exact hqD
        rw [List.getD_eq_getElem _ _ hq''] at hvD
        exact hvD ▸ List.getElem_mem hq''
    | none =>
      rw [findValue_none_iff hm] at hfv
      rw [findValue_none_iff hm']
      intro hmem
      apply hfv
      obtain ⟨q, hq, hkq⟩ := mem_keysOf_iff.1 hmem
      rw [hlen'] at hq
      rw [hkey' q hq] at hkq
      by_cases hqp : q = p
      · rw [if_pos hqp] at hkq
        exact mem_keysOf_iff.2 ⟨m.stored_elements - 1, by omega, hkq⟩
      · rw [if_neg hqp] at hkq
        exact mem_keysOf_iff.2 ⟨q, by omega, hkq⟩

/-! ## The spec's structural invariant, derived from the class invariant -/

theorem countP_eq_one {α : Type} {P : α → Bool} :
    ∀ {L : List α} {t : Nat} (ht : t < L.length),
      P (L.get ⟨t, ht⟩) = true →
      (∀ j (hj : j < L.length), P (L.get ⟨j, hj⟩) = true → j = t) →
      L.countP P = 1 := by
  intro L
  induction L with
  | nil =>
    intro t ht
    exact absurd ht (by simp)
  | cons x xs ih =>
    intro t ht hPt huniq
    cases t with
    | zero =>
      have hPx : P x = true := hPt
      rw [List.countP_cons, if_pos hPx]
      have hzero : xs.countP P = 0 := by
        rw [List.countP_eq_zero]
        intro a ha hPa
        obtain ⟨j, hj, hEq⟩ := List.mem_iff_getElem.1 ha
        have hPj : P (xs.get ⟨j, hj⟩) = true := by
          rw [List.get_eq_getElem]
          rw [hEq]
          exact hPa
        have := huniq (j + 1) (by rw [List.length_cons]; omega) hPj
        omega
      rw [hzero]
    | succ s =>
      have hs : s < xs.length := by
        rw [List.length_cons] at ht
        omega
      have hPx : ¬ P x = true := by
        intro hc
        have := huniq 0 (by rw [List.length_cons]; omega) hc
        omega
      rw [List.countP_cons, if_neg hPx, Nat.add_zero]
      refine ih hs hPt ?_
      intro j hj hPj
      have := huniq (j + 1) (by rw [List.length_cons]; omega) hPj
      omega

theorem SI_of_Inv {m : HashMap} (hm : Inv m) : StructuralInvariant m := by
  refine ⟨hm.stored_eq, ?_, ?_⟩
  · intro p hp
    refine ⟨?_, hm.complete p hp⟩
    have hcap : 0 < m.capacity := cap_pos_of_stored hm (by omega)
    have hb : bucketOf m (keyAt m p) < m.indices.length := by
      rw [hm.idx_len]
      exact bucketOf_lt hcap _
    refine countP_eq_one hb ?_ ?_
    · rw [decide_eq_true_eq, List.get_eq_getElem]
      have hmem := hm.complete p hp
      rw [chainAt, List.getD_eq_getElem _ _ hb] at hmem
      exact hmem
    · intro j hj hdec
      rw [decide_eq_true_eq, List.get_eq_getElem] at hdec
      have hjc : j < m.capacity := by
        rw [← hm.idx_len]
        exact hj
      have hmem : p ∈ chainAt m j := by
        rw [chainAt, List.getD_eq_getElem _ _ hj]
        exact hdec
      exact ((hm.sound j hjc p hmem).2).symm
  · intro c hc q hq
    obtain ⟨b, hb, hEq⟩ := List.mem_iff_getElem.1 hc
    have hbc : b < m.capacity := by
      rw [← hm.idx_len]
      exact hb
    have hmem : q ∈ chainAt m b := by
      rw [chainAt, List.getD_eq_getElem _ _ hb, hEq]
      exact hq
    exact (hm.sound b hbc q hmem).1

theorem inv_mkHashMap (h : Nat → Nat) : Inv (mkHashMap h) :=
  inv_emptied rfl rfl rfl

theorem inv_clear (m : HashMap) : Inv (clear m) :=
  inv_emptied rfl rfl rfl

theorem find_mkHashMap (h : Nat → Nat) (k : Nat) : find (mkHashMap h) k = none := by
  have hc : ¬ (mkHashMap h).capacity = 0 := Nat.one_ne_zero
  have hb : bucketOf (mkHashMap h) k = 0 := Nat.mod_one (h k)
  unfold find
  rw [if_neg hc, GetBucketIndex_ok hc, hb]
  rfl

/-! ## Evaluation helpers: running the fuelled functions on given states -/

theorem insert_step {m m1 : HashMap} {e : Nat × Nat} {f : Nat}
    (h1 : find m e.1 = none) (hU : UpscaleIfNecessaryF f m = .ok m1)
    (h4 : m1.capacity ≠ 0) :
    insertF (f + 1) m e = .ok (appendEntry m1 e, m1.stored_elements) := by
  simp only [insertF.eq_2, h1, hU, GetBucketIndex_ok h4]
  rfl

theorem insert_bucket_err {m m1 : HashMap} {e : Nat × Nat} {f : Nat} {u : UB}
    (h1 : find m e.1 = none) (hU : UpscaleIfNecessaryF f m = .ok m1)
    (h4 : GetBucketIndex m1 e.1 = .error u) :
    insertF (f + 1) m e = .error u := by
  simp only [insertF.eq_2, h1, hU, h4]

theorem upscale_full {fuel : Nat} {m mR : HashMap}
    (h2 : m.capacity * kMaxLoadFactor ≤ m.stored_elements)
    (h3 : RebuildGo fuel
      { m with capacity := m.capacity * kScalingFactor, stored_elements := 0,
               hashmap := [],
               indices := List.replicate (m.capacity * kScalingFactor) [] }
      m.hashmap = .ok mR) :
    UpscaleIfNecessaryF fuel m = .ok mR := by
  rw [UpscaleIfNecessaryF.eq_1, if_pos h2, RebuildF.eq_1]
  exact h3

theorem downscale_not {fuel : Nat} {m : HashMap}
    (h : ¬ m.stored_elements * kMinLoadFactor ≤ m.capacity) :
    DownscaleIfNecessaryF fuel m = .ok m := by
  rw [DownscaleIfNecessaryF, if_neg h]

theorem downscale_full {fuel : Nat} {m mR : HashMap}
    (h : m.stored_elements * kMinLoadFactor ≤ m.capacity)
    (h3 : RebuildGo fuel
      { m with capacity := m.capacity / kScalingFactor, stored_elements := 0,
               hashmap := [],
               indices := List.replicate (m.capacity / kScalingFactor) [] }
      m.hashmap = .ok mR) :
    DownscaleIfNecessaryF fuel m = .ok mR := by
  rw [DownscaleIfNecessaryF, if_pos h, RebuildF.eq_1]
  exact h3

theorem rebuildGo_step {fuel p : Nat} {m m1 : HashMap} {e : Nat × Nat}
    {rest : List (Nat × Nat)} (h : insertF fuel m e = .ok (m1, p)) :
    RebuildGo fuel m (e :: rest) = RebuildGo fuel m1 rest := by
  rw [RebuildGo.eq_2]
  simp only [h]

theorem erase_to_downscale {fuel : Nat} {m m1 m2 : HashMap} {k p : Nat}
    {it : Nat × Nat} (hf : find m k = some p)
    (hs : SwapWithLastIfNecessary m k = .ok (m1, it))
    (he : EraseLastElement m1 it = .ok m2) :
    eraseF fuel m k =
      DownscaleIfNecessaryF fuel
        { m2 with stored_elements := m2.stored_elements - 1 } := by
  rw [eraseF, hf]
  simp only [hs, he]

theorem run_nil {m : HashMap} : run m [] = .ok m := rfl

theorem run_cons_ok {m m1 : HashMap} {op : Op} {rest : List Op}
    (h : runOp m op = .ok m1) : run m (op :: rest) = run m1 rest := by
  rw [run.eq_def]
  simp only [h]

theorem run_cons_err {m : HashMap} {op : Op} {u : UB} {rest : List Op}
    (h : runOp m op = .error u) : run m (op :: rest) = .error u := by
  rw [run.eq_def]
  simp only [h]

theorem runOp_ins_ok {m m1 : HashMap} {k v p : Nat}
    (h : insert m (k, v) = .ok (m1, p)) : runOp m (Op.insOp k v) = .ok m1 := by
  show Except.map Prod.fst (insert m (k, v)) = .ok m1
  rw [h]
  rfl

theorem runOp_ins_err {m : HashMap} {k v : Nat} {u : UB}
    (h : insert m (k, v) = .error u) : runOp m (Op.insOp k v) = .error u := by
  show Except.map Prod.fst (insert m (k, v)) = .error u
  rw [h]
  rfl

theorem runOp_del_eq {m : HashMap} {k : Nat} :
    runOp m (Op.delOp k) = erase m k := rfl

/-! ## Invariant preservation by the public operations, both paths -/

theorem insert_Inv {fuel : Nat} {m : HashMap} {e : Nat × Nat}
    {r : HashMap × Nat} (hm : Inv m) (h : insertF fuel m e = .ok r) :
    Inv r.1 := by
  cases hfind : find m e.1 with
  | some p =>
    rw [insert_found hfind] at h
    injection h with h
    rw [← h]
    exact hm
  | none => exact (insert_spec hm hfind h).2.2.2.2.2.1

theorem erase_Inv {fuel : Nat} {m m' : HashMap} {k : Nat} (hm : Inv m)
    (h : eraseF fuel m k = .ok m') : Inv m' := by
  cases hfind : find m k with
  | none =>
    rw [erase_absent hfind] at h
    injection h with h
    rw [← h]
    exact hm
  | some p => exact (erase_spec hm hfind h).2.2.2.2

theorem validRun_size {m : HashMap} {ops : List Op} {m' : HashMap}
    (h : ValidRun m ops m') :
    Inv m →
      Inv m' ∧
      m'.stored_elements + countDel ops = m.stored_elements + countIns ops := by
  induction h with
  | nil => exact fun hm => ⟨hm, rfl⟩
  | @ins m m1 m2 k v q fuel ops hf hins _ ih =>
    intro hm
    obtain ⟨-, -, hst, -, -, hInv1, -⟩ := insert_spec hm hf hins
    obtain ⟨hInv2, hsz⟩ := ih hInv1
    refine ⟨hInv2, ?_⟩
    have hst2 : m1.stored_elements = m.stored_elements + 1 := hst
    simp only [countIns, countDel]
    omega
  | del hf herase _ ih =>
    intro hm
    obtain ⟨hp, -⟩ := find_spec_some hm hf
    obtain ⟨hst, -, -, -, hInv1⟩ := erase_spec hm hf herase
    obtain ⟨hInv2, hsz⟩ := ih hInv1
    refine ⟨hInv2, ?_⟩
    simp only [countIns, countDel]
    omega

/-! ## The claims -/

/-- Counterexample to claim C1: after one insert the reachable state has
`stored_elements = 1` and `capacity = 1`, so the claimed half-full trigger
`stored_count >= capacity * 1/2` (equivalently `capacity <= 2 * stored_count`)
holds and the claim predicts the capacity doubles to 2 before the next append;
but `UpscaleIfNecessary` leaves this state untouched — the code's trigger is
`stored_elements_ >= capacity_ * 2`. -/
theorem C1_counterexample :
    ∃ m1, insert (mkHashMap id) (0, 0) = .ok (m1, 0) ∧
      m1.capacity ≤ 2 * m1.stored_elements ∧
      UpscaleIfNecessaryF 2 m1 = .ok m1 ∧
      m1.capacity = 1 := by
  have i1 : insertF (1 + 1) (mkHashMap id) (0, 0) =
      .ok ((⟨1, 1, [[0]], [(0, 0)], id⟩ : HashMap), 0) :=
    insert_notFull rfl (by decide)
  exact ⟨⟨1, 1, [[0]], [(0, 0)], id⟩, i1, by decide,
    upscale_not (by decide), rfl⟩

/-- Claim C1 (corrected): on the absent-key path of `insert`, the table grows
exactly when `stored_elements_ >= capacity_ * kMaxLoadFactor` with
`kMaxLoadFactor = 2` — a multiplier of 2, not the spec's 1/2 — and the grow
step sets the new capacity to `capacity_ * kScalingFactor = capacity_ * 2`;
otherwise the capacity is unchanged. -/
theorem C1_grow_policy {fuel : Nat} {m : HashMap} {e : Nat × Nat}
    {r : HashMap × Nat} (hm : Inv m) (hfind : find m e.1 = none)
    (h : insertF fuel m e = .ok r) :
    r.1.capacity =
      (if m.capacity * kMaxLoadFactor ≤ m.stored_elements
       then m.capacity * kScalingFactor else m.capacity) ∧
    kMaxLoadFactor = 2 ∧ kScalingFactor = 2 :=
  ⟨(insert_spec hm hfind h).2.2.2.2.1, rfl, rfl⟩

/-- The grow policy theorem applied to the empty table and the entry (0, 0). -/
theorem C1_grow_policy_witness :
    Inv (mkHashMap id) ∧ find (mkHashMap id) 0 = none ∧
    insertF 2 (mkHashMap id) (0, 0) =
      .ok ((⟨1, 1, [[0]], [(0, 0)], id⟩ : HashMap), 0) ∧
    ((⟨1, 1, [[0]], [(0, 0)], id⟩ : HashMap).capacity =
      (if (mkHashMap id).capacity * kMaxLoadFactor ≤
          (mkHashMap id).stored_elements
       then (mkHashMap id).capacity * kScalingFactor
       else (mkHashMap id).capacity) ∧
     kMaxLoadFactor = 2 ∧ kScalingFactor = 2) := by
  have hins : insertF (1 + 1) (mkHashMap id) (0, 0) =
      .ok ((⟨1, 1, [[0]], [(0, 0)], id⟩ : HashMap), 0) :=
    insert_notFull rfl (by decide)
  exact ⟨inv_mkHashMap id, rfl, hins,
    C1_grow_policy (inv_mkHashMap id) (by rfl) hins⟩

/-- Claim C2 is false of the code: from a default-constructed map, insert(0,0)
followed by erase(0) drives the capacity to 0 — after the erase the count is 0,
`DownscaleIfNecessary` fires (`0 * 4 <= 1`) and halves capacity 1 to 0 — so the
capacity does not stay at least 1. -/
theorem C2_capacity_reaches_zero :
    ∃ m', run (mkHashMap id) [Op.insOp 0 0, Op.delOp 0] = .ok m' ∧
      m'.capacity = 0 := by
  have i1 : insertF (1 + 1) (mkHashMap id) (0, 0) =
      .ok ((⟨1, 1, [[0]], [(0, 0)], id⟩ : HashMap), 0) :=
    insert_notFull rfl (by decide)
  have i1' : insert (mkHashMap id) (0, 0) =
      .ok ((⟨1, 1, [[0]], [(0, 0)], id⟩ : HashMap), 0) := i1
  have e2 : DownscaleIfNecessaryF 3 (⟨1, 0, [[]], [], id⟩ : HashMap) =
      .ok (⟨0, 0, [], [], id⟩ : HashMap) := by
    refine downscale_full (by decide) ?_
    show RebuildGo 3 (⟨0, 0, [], [], id⟩ : HashMap) [] =
      .ok (⟨0, 0, [], [], id⟩ : HashMap)
    rw [RebuildGo.eq_1]
  have e1 : eraseF 3 (⟨1, 1, [[0]], [(0, 0)], id⟩ : HashMap) 0 =
      DownscaleIfNecessaryF 3 (⟨1, 0, [[]], [], id⟩ : HashMap) := rfl
  have e3 : erase (⟨1, 1, [[0]], [(0, 0)], id⟩ : HashMap) 0 =
      .ok (⟨0, 0, [], [], id⟩ : HashMap) := e1.trans e2
  refine ⟨⟨0, 0, [], [], id⟩, ?_, rfl⟩
  rw [run_cons_ok (runOp_ins_ok i1'), run_cons_ok (runOp_del_eq.trans e3)]
  exact run_nil

/-- Claim C3 is false of the code: after insert(0,0) and erase(0) the capacity
is 0, and the next insert reaches `GetBucketIndex`, which evaluates
`hasher_(key) % capacity_` with `capacity_ = 0` — a division by zero, modelled
here as the error `UB.modByZero` — so not every operation sequence runs to
completion. -/
theorem C3_insert_mod_zero :
    run (mkHashMap id) [Op.insOp 0 0, Op.delOp 0, Op.insOp 1 1] =
      .error UB.modByZero := by
  have i1 : insertF (1 + 1) (mkHashMap id) (0, 0) =
      .ok ((⟨1, 1, [[0]], [(0, 0)], id⟩ : HashMap), 0) :=
    insert_notFull rfl (by decide)
  have i1' : insert (mkHashMap id) (0, 0) =
      .ok ((⟨1, 1, [[0]], [(0, 0)], id⟩ : HashMap), 0) := i1
  have e2 : DownscaleIfNecessaryF 3 (⟨1, 0, [[]], [], id⟩ : HashMap) =
      .ok (⟨0, 0, [], [], id⟩ : HashMap) := by
    refine downscale_full (by decide) ?_
    show RebuildGo 3 (⟨0, 0, [], [], id⟩ : HashMap) [] =
      .ok (⟨0, 0, [], [], id⟩ : HashMap)
    rw [RebuildGo.eq_1]
  have e1 : eraseF 3 (⟨1, 1, [[0]], [(0, 0)], id⟩ : HashMap) 0 =
      DownscaleIfNecessaryF 3 (⟨1, 0, [[]], [], id⟩ : HashMap) := rfl
  have e3 : erase (⟨1, 1, [[0]], [(0, 0)], id⟩ : HashMap) 0 =
      .ok (⟨0, 0, [], [], id⟩ : HashMap) := e1.trans e2
  have hU : UpscaleIfNecessaryF 1 (⟨0, 0, [], [], id⟩ : HashMap) =
      .ok (⟨0, 0, [], [], id⟩ : HashMap) := by
    refine upscale_full (by decide) ?_
    show RebuildGo 1 (⟨0, 0, [], [], id⟩ : HashMap) [] =
      .ok (⟨0, 0, [], [], id⟩ : HashMap)
    rw [RebuildGo.eq_1]
  have i2 : insertF (1 + 1) (⟨0, 0, [], [], id⟩ : HashMap) (1, 1) =
      .error UB.modByZero := insert_bucket_err rfl hU rfl
  have i2' : insert (⟨0, 0, [], [], id⟩ : HashMap) (1, 1) =
      .error UB.modByZero := i2
  rw [run_cons_ok (runOp_ins_ok i1'), run_cons_ok (runOp_del_eq.trans e3)]
  exact run_cons_err (runOp_ins_err i2')

/-- Claim C4: insert is insert-if-absent.  Inserting (k, v1) into a table not
holding k and then inserting (k, v2) leaves the lookup of k at v1, never v2:
the second insert returns the position of the existing entry with the state
completely unchanged, so no value is overwritten. -/
theorem C4_insert_if_absent {fuel fuel2 : Nat} {m m1 : HashMap}
    {k v1 v2 q : Nat} (hm : Inv m) (h0 : find m k = none)
    (h1 : insertF fuel m (k, v1) = .ok (m1, q)) :
    findValue m1 k = some v1 ∧
    ∃ p, find m1 k = some p ∧
      insertF fuel2 m1 (k, v2) = .ok (m1, p) ∧
      (v1 ≠ v2 → findValue m1 k ≠ some v2) := by
  obtain ⟨-, hmap, -, -, -, hInv1, -⟩ := insert_spec hm h0 h1
  have hmap' : m1.hashmap = m.hashmap ++ [(k, v1)] := hmap
  have hInv1' : Inv m1 := hInv1
  have hfv : findValue m1 k = some v1 := by
    rw [findValue_some_iff hInv1', hmap']
    exact List.mem_append_right _ (by simp)
  have hp : ∃ p, find m1 k = some p := by
    rw [findValue] at hfv
    cases hf : find m1 k with
    | none => rw [hf] at hfv; cases hfv
    | some p => exact ⟨p, rfl⟩
  obtain ⟨p, hp⟩ := hp
  refine ⟨hfv, p, hp, insert_found hp, ?_⟩
  intro hne hc
  rw [hfv] at hc
  injection hc with hc
  exact hne hc

/-- The insert-if-absent theorem applied to the empty table,
k = 0, v1 = 5, v2 = 7. -/
theorem C4_witness :
    Inv (mkHashMap id) ∧ find (mkHashMap id) 0 = none ∧
    insertF 2 (mkHashMap id) (0, 5) =
      .ok ((⟨1, 1, [[0]], [(0, 5)], id⟩ : HashMap), 0) ∧
    (findValue (⟨1, 1, [[0]], [(0, 5)], id⟩ : HashMap) 0 = some 5 ∧
     ∃ p, find (⟨1, 1, [[0]], [(0, 5)], id⟩ : HashMap) 0 = some p ∧
       insertF 2 (⟨1, 1, [[0]], [(0, 5)], id⟩ : HashMap) (0, 7) =
         .ok ((⟨1, 1, [[0]], [(0, 5)], id⟩ : HashMap), p) ∧
       (5 ≠ 7 →
         findValue (⟨1, 1, [[0]], [(0, 5)], id⟩ : HashMap) 0 ≠ some 7)) := by
  have hins : insertF (1 + 1) (mkHashMap id) (0, 5) =
      .ok ((⟨1, 1, [[0]], [(0, 5)], id⟩ : HashMap), 0) :=
    insert_notFull rfl (by decide)
  exact ⟨inv_mkHashMap id, rfl, hins,
    C4_insert_if_absent (inv_mkHashMap id) rfl hins⟩

/-- Claim C5: swap-with-end correctness.  Erasing a key whose entry is not the
last one in storage leaves the formerly last entry still findable at its key
with its original value; and the literal scenario — insert (0,1), (1,2), (2,3)
with the identity hasher, then erase key 0 — ends with size 2, key 0 absent,
keys 1 and 2 still mapped to 2 and 3, and the storage slot formerly holding
key 0 now holding the entry (2, 3) relocated by the swap. -/
theorem C5_swap_with_end {fuel : Nat} {m m' : HashMap} {k p : Nat}
    (hm : Inv m) (hfind : find m k = some p) (h : eraseF fuel m k = .ok m')
    (hnl : keyAt m (m.stored_elements - 1) ≠ k) :
    findValue m' (keyAt m (m.stored_elements - 1)) =
      findValue m (keyAt m (m.stored_elements - 1)) ∧
    run (mkHashMap id) [Op.insOp 0 1, Op.insOp 1 2, Op.insOp 2 3, Op.delOp 0] =
      .ok (⟨2, 2, [[0], [1]], [(2, 3), (1, 2)], id⟩ : HashMap) ∧
    size (⟨2, 2, [[0], [1]], [(2, 3), (1, 2)], id⟩ : HashMap) = 2 ∧
    find (⟨2, 2, [[0], [1]], [(2, 3), (1, 2)], id⟩ : HashMap) 0 = none ∧
    findValue (⟨2, 2, [[0], [1]], [(2, 3), (1, 2)], id⟩ : HashMap) 1 = some 2 ∧
    findValue (⟨2, 2, [[0], [1]], [(2, 3), (1, 2)], id⟩ : HashMap) 2 = some 3 ∧
    (⟨2, 2, [[0], [1]], [(2, 3), (1, 2)], id⟩ : HashMap).hashmap.getD 0 (0, 0) =
      (2, 3) := by
  have i1 : insertF (1 + 1) (mkHashMap id) (0, 1) =
      .ok ((⟨1, 1, [[0]], [(0, 1)], id⟩ : HashMap), 0) :=
    insert_notFull rfl (by decide)
  have i1' : insert (mkHashMap id) (0, 1) =
      .ok ((⟨1, 1, [[0]], [(0, 1)], id⟩ : HashMap), 0) := i1
  have i2 : insertF (2 + 1) (⟨1, 1, [[0]], [(0, 1)], id⟩ : HashMap) (1, 2) =
      .ok ((⟨1, 2, [[0, 1]], [(0, 1), (1, 2)], id⟩ : HashMap), 1) :=
    insert_notFull rfl (by decide)
  have i2' : insert (⟨1, 1, [[0]], [(0, 1)], id⟩ : HashMap) (1, 2) =
      .ok ((⟨1, 2, [[0, 1]], [(0, 1), (1, 2)], id⟩ : HashMap), 1) := i2
  have r1 : insertF (2 + 1) (⟨2, 0, [[], []], [], id⟩ : HashMap) (0, 1) =
      .ok ((⟨2, 1, [[0], []], [(0, 1)], id⟩ : HashMap), 0) :=
    insert_notFull rfl (by decide)
  have r2 : insertF (2 + 1) (⟨2, 1, [[0], []], [(0, 1)], id⟩ : HashMap) (1, 2) =
      .ok ((⟨2, 2, [[0], [1]], [(0, 1), (1, 2)], id⟩ : HashMap), 1) :=
    insert_notFull rfl (by decide)
  have hgo : RebuildGo (2 + 1) (⟨2, 0, [[], []], [], id⟩ : HashMap)
      [(0, 1), (1, 2)] =
      .ok (⟨2, 2, [[0], [1]], [(0, 1), (1, 2)], id⟩ : HashMap) := by
    rw [rebuildGo_step r1, rebuildGo_step r2, RebuildGo.eq_1]
  have hU : UpscaleIfNecessaryF (2 + 1)
      (⟨1, 2, [[0, 1]], [(0, 1), (1, 2)], id⟩ : HashMap) =
      .ok (⟨2, 2, [[0], [1]], [(0, 1), (1, 2)], id⟩ : HashMap) :=
    upscale_full (by decide) hgo
  have i3 : insertF (2 + 1 + 1)
      (⟨1, 2, [[0, 1]], [(0, 1), (1, 2)], id⟩ : HashMap) (2, 3) =
      .ok ((⟨2, 3, [[0, 2], [1]], [(0, 1), (1, 2), (2, 3)], id⟩ : HashMap), 2) :=
    insert_step (by rfl) hU (by decide)
  have i3' : insert (⟨1, 2, [[0, 1]], [(0, 1), (1, 2)], id⟩ : HashMap) (2, 3) =
      .ok ((⟨2, 3, [[0, 2], [1]], [(0, 1), (1, 2), (2, 3)], id⟩ : HashMap), 2) := i3
  have e1 : eraseF (3 + 2)
      (⟨2, 3, [[0, 2], [1]], [(0, 1), (1, 2), (2, 3)], id⟩ : HashMap) 0 =
      DownscaleIfNecessaryF (3 + 2)
        (⟨2, 2, [[0], [1]], [(2, 3), (1, 2)], id⟩ : HashMap) := rfl
  have e2 : DownscaleIfNecessaryF (3 + 2)
      (⟨2, 2, [[0], [1]], [(2, 3), (1, 2)], id⟩ : HashMap) =
      .ok (⟨2, 2, [[0], [1]], [(2, 3), (1, 2)], id⟩ : HashMap) :=
    downscale_not (by decide)
  have e3 : erase
      (⟨2, 3, [[0, 2], [1]], [(0, 1), (1, 2), (2, 3)], id⟩ : HashMap) 0 =
      .ok (⟨2, 2, [[0], [1]], [(2, 3), (1, 2)], id⟩ : HashMap) := e1.trans e2
  refine ⟨(erase_findValue hm hfind h).2 _ hnl, ?_, rfl, rfl, rfl, rfl, rfl⟩
  rw [run_cons_ok (runOp_ins_ok i1'), run_cons_ok (runOp_ins_ok i2'),
    run_cons_ok (runOp_ins_ok i3'), run_cons_ok (runOp_del_eq.trans e3)]
  exact run_nil

/-- The swap-with-end theorem applied to the literal scenario's three-element
state, erasing key 0 (whose entry is first, not last, in storage). -/
theorem C5_witness :
    Inv (⟨2, 3, [[0, 2], [1]], [(0, 1), (1, 2), (2, 3)], id⟩ : HashMap) ∧
    find (⟨2, 3, [[0, 2], [1]], [(0, 1), (1, 2), (2, 3)], id⟩ : HashMap) 0 =
      some 0 ∧
    eraseF 5 (⟨2, 3, [[0, 2], [1]], [(0, 1), (1, 2), (2, 3)], id⟩ : HashMap) 0 =
      .ok (⟨2, 2, [[0], [1]], [(2, 3), (1, 2)], id⟩ : HashMap) ∧
    keyAt (⟨2, 3, [[0, 2], [1]], [(0, 1), (1, 2), (2, 3)], id⟩ : HashMap) 2 ≠ 0 ∧
    findValue (⟨2, 2, [[0], [1]], [(2, 3), (1, 2)], id⟩ : HashMap)
      (keyAt (⟨2, 3, [[0, 2], [1]], [(0, 1), (1, 2), (2, 3)], id⟩ : HashMap) 2) =
    findValue (⟨2, 3, [[0, 2], [1]], [(0, 1), (1, 2), (2, 3)], id⟩ : HashMap)
      (keyAt (⟨2, 3, [[0, 2], [1]], [(0, 1), (1, 2), (2, 3)], id⟩ : HashMap) 2) := by
  have hInv : Inv (⟨2, 3, [[0, 2], [1]], [(0, 1), (1, 2), (2, 3)], id⟩ : HashMap) :=
    ⟨rfl, rfl, by decide, by decide, by decide, by decide, by decide⟩
  have e1 : eraseF 5
      (⟨2, 3, [[0, 2], [1]], [(0, 1), (1, 2), (2, 3)], id⟩ : HashMap) 0 =
      DownscaleIfNecessaryF 5
        (⟨2, 2, [[0], [1]], [(2, 3), (1, 2)], id⟩ : HashMap) := rfl
  have he : eraseF 5
      (⟨2, 3, [[0, 2], [1]], [(0, 1), (1, 2), (2, 3)], id⟩ : HashMap) 0 =
      .ok (⟨2, 2, [[0], [1]], [(2, 3), (1, 2)], id⟩ : HashMap) :=
    e1.trans (downscale_not (by decide))
  exact ⟨hInv, rfl, he, by decide,
    (C5_swap_with_end hInv (by rfl) he (by decide)).1⟩

/-- Claim C6: resize correctness.  On a state satisfying the class invariant,
whenever the policy-triggered grow step (`UpscaleIfNecessary`) or shrink step
(`DownscaleIfNecessary`) completes, the element count is unchanged and every
key's lookup result is unchanged — in particular every previously inserted,
not-yet-erased key is still found after the rebuild. -/
theorem C6_resize_correctness {m : HashMap} (hm : Inv m) :
    (∀ fuel m1, UpscaleIfNecessaryF fuel m = .ok m1 →
      size m1 = size m ∧ ∀ k, findValue m1 k = findValue m k) ∧
    (∀ fuel m1, DownscaleIfNecessaryF fuel m = .ok m1 →
      size m1 = size m ∧ ∀ k, findValue m1 k = findValue m k) := by
  constructor
  · intro fuel m1 h
    obtain ⟨hmap, hst, -, -, hInv1, -⟩ := upscale_spec hm h
    exact ⟨hst, fun k => findValue_congr hm hInv1 hmap k⟩
  · intro fuel m1 h
    obtain ⟨hmap, hst, -, -, hInv1⟩ := downscale_spec hm h
    exact ⟨hst, fun k => findValue_congr hm hInv1 hmap k⟩

/-- The resize theorem applied to a full two-element table whose upscale
doubles the capacity and rebuilds both chains. -/
theorem C6_witness :
    Inv (⟨1, 2, [[0, 1]], [(0, 1), (1, 2)], id⟩ : HashMap) ∧
    UpscaleIfNecessaryF 3 (⟨1, 2, [[0, 1]], [(0, 1), (1, 2)], id⟩ : HashMap) =
      .ok (⟨2, 2, [[0], [1]], [(0, 1), (1, 2)], id⟩ : HashMap) ∧
    size (⟨2, 2, [[0], [1]], [(0, 1), (1, 2)], id⟩ : HashMap) =
      size (⟨1, 2, [[0, 1]], [(0, 1), (1, 2)], id⟩ : HashMap) ∧
    findValue (⟨2, 2, [[0], [1]], [(0, 1), (1, 2)], id⟩ : HashMap) 0 =
      findValue (⟨1, 2, [[0, 1]], [(0, 1), (1, 2)], id⟩ : HashMap) 0 := by
  have hInv : Inv (⟨1, 2, [[0, 1]], [(0, 1), (1, 2)], id⟩ : HashMap) :=
    ⟨rfl, rfl, by decide, by decide, by decide, by decide, by decide⟩
  have r1 : insertF (2 + 1) (⟨2, 0, [[], []], [], id⟩ : HashMap) (0, 1) =
      .ok ((⟨2, 1, [[0], []], [(0, 1)], id⟩ : HashMap), 0) :=
    insert_notFull rfl (by decide)
  have r2 : insertF (2 + 1) (⟨2, 1, [[0], []], [(0, 1)], id⟩ : HashMap) (1, 2) =
      .ok ((⟨2, 2, [[0], [1]], [(0, 1), (1, 2)], id⟩ : HashMap), 1) :=
    insert_notFull rfl (by decide)
  have hgo : RebuildGo (2 + 1) (⟨2, 0, [[], []], [], id⟩ : HashMap)
      [(0, 1), (1, 2)] =
      .ok (⟨2, 2, [[0], [1]], [(0, 1), (1, 2)], id⟩ : HashMap) := by
    rw [rebuildGo_step r1, rebuildGo_step r2, RebuildGo.eq_1]
  have hU : UpscaleIfNecessaryF 3
      (⟨1, 2, [[0, 1]], [(0, 1), (1, 2)], id⟩ : HashMap) =
      .ok (⟨2, 2, [[0], [1]], [(0, 1), (1, 2)], id⟩ : HashMap) :=
    upscale_full (by decide) hgo
  have hres := (C6_resize_correctness hInv).1 3
    (⟨2, 2, [[0], [1]], [(0, 1), (1, 2)], id⟩ : HashMap) hU
  exact ⟨hInv, hU, hres.1, hres.2 0⟩

/-- Claim C7: on a state satisfying the class invariant, `at` fails with the
out-of-range error exactly when the key is absent from the stored keys, and
returns the stored value when the key is present; on an empty,
default-constructed table every `at` signals key-not-found; and `erase` of an
absent key degrades to a no-op instead of signalling. -/
theorem C7_at_error_semantics {m : HashMap} (hm : Inv m) :
    (∀ k, atV m k = .error TableError.out_of_range ↔ k ∉ keysOf m) ∧
    (∀ k v, (k, v) ∈ m.hashmap → atV m k = .ok v) ∧
    (∀ h k, atV (mkHashMap h) k = .error TableError.out_of_range) ∧
    (∀ fuel k, find m k = none → eraseF fuel m k = .ok m) := by
  refine ⟨?_, ?_, ?_, fun fuel k hf => erase_absent hf⟩
  · intro k
    constructor
    · intro h
      cases hf : find m k with
      | none => exact not_mem_keys_of_find_none hm hf
      | some p =>
        simp only [atV, hf] at h
        exact Except.noConfusion h
    · intro h
      simp only [atV, find_none_of_not_mem hm h]
  · intro k v hmem
    have hfv : findValue m k = some v := (findValue_some_iff hm).2 hmem
    cases hf : find m k with
    | none =>
      rw [findValue, hf, Option.map_none'] at hfv
      exact Option.noConfusion hfv
    | some p =>
      rw [findValue, hf, Option.map_some'] at hfv
      injection hfv with hfv
      simp only [atV, hf, hfv]
  · intro h k
    simp only [atV, find_mkHashMap h k]

/-- The `at` semantics theorem applied to a one-element table holding (0, 5),
querying the absent key 3 and the present key 0, plus the empty-table and
absent-erase instances. -/
theorem C7_witness :
    Inv (⟨1, 1, [[0]], [(0, 5)], id⟩ : HashMap) ∧
    ((atV (⟨1, 1, [[0]], [(0, 5)], id⟩ : HashMap) 3 =
        .error TableError.out_of_range ↔
      3 ∉ keysOf (⟨1, 1, [[0]], [(0, 5)], id⟩ : HashMap)) ∧
     atV (⟨1, 1, [[0]], [(0, 5)], id⟩ : HashMap) 0 = .ok 5 ∧
     atV (mkHashMap id) 9 = .error TableError.out_of_range ∧
     eraseF 3 (⟨1, 1, [[0]], [(0, 5)], id⟩ : HashMap) 4 =
       .ok (⟨1, 1, [[0]], [(0, 5)], id⟩ : HashMap)) := by
  have hInv : Inv (⟨1, 1, [[0]], [(0, 5)], id⟩ : HashMap) :=
    ⟨rfl, rfl, by decide, by decide, by decide, by decide, by decide⟩
  have hres := C7_at_error_semantics hInv
  exact ⟨hInv, hres.1 3, hres.2.1 0 5 (by decide), hres.2.2.1 id 9,
    hres.2.2.2 3 4 rfl⟩

/-- Claim C8: size consistency.  Starting from a default-constructed table, a
run of N inserts of absent keys and M erases of present keys that all execute
ends with `size() = N - M`, where M never exceeds N; and an erase whose key is
absent is a no-op on the whole state (hence on the size). -/
theorem C8_size_consistency {h : Nat → Nat} {m' : HashMap} {ops : List Op}
    (hr : ValidRun (mkHashMap h) ops m') :
    size m' = countIns ops - countDel ops ∧
    countDel ops ≤ countIns ops ∧
    (∀ (m2 : HashMap) (fuel k : Nat),
      find m2 k = none → eraseF fuel m2 k = .ok m2) := by
  obtain ⟨-, hsz⟩ := validRun_size hr (inv_mkHashMap h)
  have h0 : (mkHashMap h).stored_elements = 0 := rfl
  refine ⟨?_, by omega, fun m2 fuel k hf => erase_absent hf⟩
  show m'.stored_elements = countIns ops - countDel ops
  omega

/-- The size bookkeeping theorem applied to the run insert(0,0), insert(1,1),
erase(0): two inserts of fresh keys and one erase of a present key leave
size 1 = 2 - 1. -/
theorem C8_witness :
    ValidRun (mkHashMap id) [Op.insOp 0 0, Op.insOp 1 1, Op.delOp 0]
      (⟨1, 1, [[0]], [(1, 1)], id⟩ : HashMap) ∧
    size (⟨1, 1, [[0]], [(1, 1)], id⟩ : HashMap) =
      countIns [Op.insOp 0 0, Op.insOp 1 1, Op.delOp 0] -
      countDel [Op.insOp 0 0, Op.insOp 1 1, Op.delOp 0] := by
  have hins1 : insertF (1 + 1) (mkHashMap id) (0, 0) =
      .ok ((⟨1, 1, [[0]], [(0, 0)], id⟩ : HashMap), 0) :=
    insert_notFull rfl (by decide)
  have hins2 : insertF (2 + 1) (⟨1, 1, [[0]], [(0, 0)], id⟩ : HashMap) (1, 1) =
      .ok ((⟨1, 2, [[0, 1]], [(0, 0), (1, 1)], id⟩ : HashMap), 1) :=
    insert_notFull rfl (by decide)
  have e1 : eraseF 4 (⟨1, 2, [[0, 1]], [(0, 0), (1, 1)], id⟩ : HashMap) 0 =
      DownscaleIfNecessaryF 4 (⟨1, 1, [[0]], [(1, 1)], id⟩ : HashMap) := rfl
  have herase : eraseF 4 (⟨1, 2, [[0, 1]], [(0, 0), (1, 1)], id⟩ : HashMap) 0 =
      .ok (⟨1, 1, [[0]], [(1, 1)], id⟩ : HashMap) :=
    e1.trans (downscale_not (by decide))
  have hrun : ValidRun (mkHashMap id) [Op.insOp 0 0, Op.insOp 1 1, Op.delOp 0]
      (⟨1, 1, [[0]], [(1, 1)], id⟩ : HashMap) :=
    ValidRun.ins rfl hins1 (ValidRun.ins rfl hins2
      (ValidRun.del (by rfl) herase ValidRun.nil))
  exact ⟨hrun, (C8_size_consistency hrun).1⟩

/-- Claim C9: the spec's structural invariant — the count equals the storage
length, every live position sits in exactly one chain, namely the bucket of
its key, and no chain holds a dead position — holds of every state satisfying
the class invariant and is preserved by every public operation: by `insert`
and `erase` whenever they complete, by `clear`, and by construction. -/
theorem C9_structural_invariant {m : HashMap} (hm : Inv m) :
    StructuralInvariant m ∧
    (∀ fuel e r, insertF fuel m e = .ok r → StructuralInvariant r.1) ∧
    (∀ fuel k m', eraseF fuel m k = .ok m' → StructuralInvariant m') ∧
    StructuralInvariant (clear m) ∧
    (∀ h, StructuralInvariant (mkHashMap h)) := by
  refine ⟨SI_of_Inv hm, ?_, ?_, SI_of_Inv (inv_clear m),
    fun h => SI_of_Inv (inv_mkHashMap h)⟩
  · intro fuel e r hins
    exact SI_of_Inv (insert_Inv hm hins)
  · intro fuel k m' herase
    exact SI_of_Inv (erase_Inv hm herase)

/-- The structural invariant theorem applied to a one-element table, with the
insert-preservation component instantiated on a fresh insert. -/
theorem C9_witness :
    Inv (⟨1, 1, [[0]], [(0, 0)], id⟩ : HashMap) ∧
    StructuralInvariant (⟨1, 1, [[0]], [(0, 0)], id⟩ : HashMap) ∧
    insertF 3 (⟨1, 1, [[0]], [(0, 0)], id⟩ : HashMap) (1, 1) =
      .ok ((⟨1, 2, [[0, 1]], [(0, 0), (1, 1)], id⟩ : HashMap), 1) ∧
    StructuralInvariant (⟨1, 2, [[0, 1]], [(0, 0), (1, 1)], id⟩ : HashMap) ∧
    StructuralInvariant (clear (⟨1, 1, [[0]], [(0, 0)], id⟩ : HashMap)) := by
  have hInv : Inv (⟨1, 1, [[0]], [(0, 0)], id⟩ : HashMap) :=
    ⟨rfl, rfl, by decide, by decide, by decide, by decide, by decide⟩
  have hins : insertF (2 + 1) (⟨1, 1, [[0]], [(0, 0)], id⟩ : HashMap) (1, 1) =
      .ok ((⟨1, 2, [[0, 1]], [(0, 0), (1, 1)], id⟩ : HashMap), 1) :=
    insert_notFull rfl (by decide)
  have hres := C9_structural_invariant hInv
  exact ⟨hInv, hres.1, hins,
    hres.2.1 3 (1, 1) ((⟨1, 2, [[0, 1]], [(0, 0), (1, 1)], id⟩ : HashMap), 1) hins,
    hres.2.2.2.1⟩

/-- Claim C10: inserting a key that is already present returns the position of
the existing entry with the state object returned completely unchanged —
capacity, storage, chains and count included — because the found-key path of
`insert` returns before the resize policy or any mutation is reached. -/
theorem C10_insert_present_frame {fuel : Nat} {m : HashMap} {k v p : Nat}
    (h : find m k = some p) : insertF fuel m (k, v) = .ok (m, p) :=
  insert_found h

/-- The frame theorem applied to a one-element table holding (0, 5), inserting
the present key 0 with the different value 7. -/
theorem C10_witness :
    find (⟨1, 1, [[0]], [(0, 5)], id⟩ : HashMap) 0 = some 0 ∧
    insertF 2 (⟨1, 1, [[0]], [(0, 5)], id⟩ : HashMap) (0, 7) =
      .ok ((⟨1, 1, [[0]], [(0, 5)], id⟩ : HashMap), 0) :=
  ⟨rfl, C10_insert_present_frame rfl⟩

end Hashmap
